import Mathlib

/-!
Verification of the structural document-manipulation core of a
word-processing library: the ordered XML node model, page segmentation
from explicit break markers, page removal, cross-document merge, package
serialization, and (modelled from the specification) the template
substitution engine.

The definitions below are a shallow embedding of the source: the
`fast-xml-parser` preserve-order node shape becomes an inductive tree,
JavaScript `Map`s and attribute records become association lists, the
`Document` class becomes a structure with pure state-passing operations,
and the one fallible operation (`removePage`) returns `Except`.
-/

namespace Word

/-- Ordered XML node, mirroring the preserve-order shape used by the
source: an element is an object with its tag as the single key (children
array) plus an optional attribute record, and a text leaf is an object
with the text key.  Attribute keys are stored without the parser's
internal name prefix. -/
inductive XmlNode where
  | elem (tag : String) (attrs : List (String × String)) (children : List XmlNode)
  | text (s : String)

/-- `getChildren(node, tagName)`: the child array stored under `tagName`,
or `[]` when the node does not carry that key. -/
def getChildren (n : XmlNode) (tagName : String) : List XmlNode :=
  match n with
  | .elem t _ cs => if t = tagName then cs else []
  | .text _ => []

/-- `getAttr(node, name)`: attribute lookup on the node's attribute
record. -/
def getAttr (n : XmlNode) (name : String) : Option String :=
  match n with
  | .elem _ attrs _ => (attrs.find? (fun kv => kv.1 == name)).map (fun kv => kv.2)
  | .text _ => none

/-- `tagName in node`: whether the node is an element with the given
tag. -/
def isTag (n : XmlNode) (tagName : String) : Bool :=
  match n with
  | .elem t _ _ => t == tagName
  | .text _ => false

/-- `createElement(tagName, attrs, children)`.  The source omits the
attribute record entirely when the map is empty; an empty association
list models the absent record. -/
def createElement (tagName : String) (attrs : List (String × String))
    (children : List XmlNode) : XmlNode :=
  .elem tagName attrs children

/-- `_paragraphHasPageBreak`: some run child of the paragraph contains a
break node whose `w:type` attribute is `page`. -/
def paragraphHasPageBreak (paragraph : XmlNode) : Bool :=
  (getChildren paragraph "w:p").any fun child =>
    isTag child "w:r" &&
      (getChildren child "w:r").any fun runChild =>
        isTag runChild "w:br" && getAttr runChild "w:type" == some "page"

/-- `_hasPageBreak`: a body element counts as a page break iff it is a
paragraph containing a page-type break. -/
def hasPageBreak (element : XmlNode) : Bool :=
  if isTag element "w:p" then paragraphHasPageBreak element else false

/-- `_createPageBreakParagraph()`: `<w:p><w:r><w:br w:type="page"/></w:r></w:p>`. -/
def createPageBreakParagraph : XmlNode :=
  createElement "w:p" []
    [createElement "w:r" [] [createElement "w:br" [("w:type", "page")] []]]

/-- `PageInfo`: 0-based page index plus inclusive element range, with
`(-1, -1)` as the empty-page sentinel. -/
structure PageInfo where
  index : Nat
  startElement : Int
  endElement : Int
deriving DecidableEq, Repr

/-- The scan loop of `getPages()`: walk the body elements with the
absolute position `i`, the current page start cursor and the running
page index; on a break-bearing element close the current page.  Returns
the emitted pages together with the final cursor and page index. -/
def getPagesAux : List XmlNode → Nat → Nat → Nat → List PageInfo × Nat × Nat
  | [], _, currentPageStart, pageIndex => ([], currentPageStart, pageIndex)
  | e :: rest, i, currentPageStart, pageIndex =>
    if hasPageBreak e then
      let r := getPagesAux rest (i + 1) (i + 1) (pageIndex + 1)
      (⟨pageIndex, (currentPageStart : Int), (i : Int)⟩ :: r.1, r.2)
    else
      getPagesAux rest (i + 1) currentPageStart pageIndex

/-- `getPages()` on a body-element list: the scan loop followed by the
final-page handling (trailing content page, trailing empty sentinel
after a terminal break, or the single sentinel page of an empty
document). -/
def getPagesList (body : List XmlNode) : List PageInfo :=
  let r := getPagesAux body 0 0 0
  let pages := r.1
  let currentPageStart := r.2.1
  let pageIndex := r.2.2
  if currentPageStart < body.length then
    pages ++ [⟨pageIndex, (currentPageStart : Int), (body.length : Int) - 1⟩]
  else if pages.length > 0 then
    pages ++ [⟨pageIndex, -1, -1⟩]
  else
    [⟨0, -1, -1⟩]

/-- The in-memory document state: the part store (path to content, file
contents modelled as strings), the body-element list, the dirty flag,
the namespace-declaration map and the optional section-properties node.
JavaScript `Map`s / records become insertion-ordered association
lists. -/
structure Document where
  files : List (String × String)
  bodyElements : List XmlNode
  dirty : Bool
  namespaces : List (String × String)
  sectPr : Option XmlNode

namespace Document

/-- `Document.create()`: empty document, dirty from birth. -/
def create : Document :=
  { files := [], bodyElements := [], dirty := true, namespaces := [], sectPr := none }

/-- `getPages()` on a document. -/
def getPages (d : Document) : List PageInfo :=
  getPagesList d.bodyElements

/-- `getPageCount()`. -/
def getPageCount (d : Document) : Nat :=
  d.getPages.length

/-- `addPageBreak()`. -/
def addPageBreak (d : Document) : Document :=
  { d with dirty := true, bodyElements := d.bodyElements ++ [createPageBreakParagraph] }

end Document

/-- `Array.prototype.splice(start, count)` restricted to removal
(nonnegative `start`): drop `count` elements starting at `start`. -/
def spliceList (l : List XmlNode) (start count : Nat) : List XmlNode :=
  l.take start ++ l.drop (start + count)

namespace Document

/-- `removePage(index)`: bounds-check first (the thrown `Error` becomes
the `Except.error` branch, carrying the exact message text), then either
drop the break that precedes a trailing sentinel page or splice out the
page's element range. -/
def removePage (d : Document) (index : Int) : Except String Document :=
  let pages := d.getPages
  if index < 0 ∨ (pages.length : Int) ≤ index then
    .error ("Page index out of bounds: " ++ toString index ++ ". Document has "
      ++ toString pages.length ++ " page(s).")
  else
    let d := { d with dirty := true }
    let page := pages.getD index.toNat ⟨0, 0, 0⟩
    if page.startElement = -1 then
      if 0 < index ∧ 0 ≤ (pages.getD (index.toNat - 1) ⟨0, 0, 0⟩).endElement then
        let prevPage := pages.getD (index.toNat - 1) ⟨0, 0, 0⟩
        .ok { d with bodyElements := spliceList d.bodyElements prevPage.endElement.toNat 1 }
      else
        .ok d
    else
      let removeCount := (page.endElement - page.startElement + 1).toNat
      .ok { d with bodyElements := spliceList d.bodyElements page.startElement.toNat removeCount }

end Document

/-- `MergeOptions`: optional page selection and the
insert-break-before-merged-content flag (absent means the default). -/
structure MergeOptions where
  pages : Option (List Int)
  addPageBreakBefore : Option Bool

/-- The default (empty) options object. -/
def MergeOptions.default : MergeOptions :=
  { pages := none, addPageBreakBefore := none }

/-- `_mergeNamespaces`: add each source declaration whose key is not
already present in the target (first writer wins). -/
def mergeNamespaces (target source : List (String × String)) :
    List (String × String) :=
  source.foldl
    (fun acc kv => if acc.any (fun p => p.1 == kv.1) then acc else acc ++ [kv])
    target

/-- The body of `merge`'s page-splice loop: skip sentinel pages, append
the deep-cloned (value-copied) element range `[start, end]` of the
source body otherwise. -/
def mergeStep (sourceBody : List XmlNode) (acc : Document) (page : PageInfo) : Document :=
  if page.startElement = -1 then acc
  else
    { acc with
      bodyElements :=
        acc.bodyElements ++
          ((sourceBody.drop page.startElement.toNat).take
            (page.endElement + 1 - page.startElement).toNat) }

namespace Document

/-- `_copyDocumentStructure`: adopt the source's section properties when
the target has none, and copy every source part except the primary
document part, skipping paths already present.  Deep cloning is identity
under value semantics. -/
def copyDocumentStructure (d source : Document) : Document :=
  let d :=
    if source.sectPr.isSome && d.sectPr.isNone then { d with sectPr := source.sectPr } else d
  { d with
    files :=
      source.files.foldl
        (fun fs pc =>
          if pc.1 == "word/document.xml" then fs
          else if fs.any (fun q => q.1 == pc.1) then fs
          else fs ++ [pc])
        d.files }

/-- `merge(source, options)` with the source already resolved to a
document (path/buffer resolution is I/O around this pure core): set the
dirty flag, union namespaces, seed structure into a pristine target,
resolve the page selection, and splice the selected pages' cloned
element ranges after an optional leading page break. -/
def merge (d source : Document) (options : MergeOptions) : Document :=
  let d := { d with dirty := true }
  let d := { d with namespaces := mergeNamespaces d.namespaces source.namespaces }
  let isFirstMerge := d.bodyElements.isEmpty && d.files.isEmpty
  let d := if isFirstMerge then d.copyDocumentStructure source else d
  let sourcePages := source.getPages
  let addPageBreakBefore := options.addPageBreakBefore ≠ some false
  let pagesToMerge :=
    match options.pages with
    | some idxs =>
      (idxs.filter (fun idx : Int => 0 ≤ idx ∧ idx < (sourcePages.length : Int))).map
        (fun idx : Int => sourcePages.getD idx.toNat ⟨0, 0, 0⟩)
    | none => sourcePages
  if pagesToMerge.isEmpty then d
  else
    let d :=
      if addPageBreakBefore ∧ 0 < d.bodyElements.length then
        { d with bodyElements := d.bodyElements ++ [createPageBreakParagraph] }
      else d
    pagesToMerge.foldl (mergeStep source.bodyElements) d

end Document

/-- Attribute serialization of the external XML builder model. -/
def stringifyAttrs : List (String × String) → String
  | [] => ""
  | kv :: rest => " " ++ kv.1 ++ "=\"" ++ kv.2 ++ "\"" ++ stringifyAttrs rest

mutual

/-- Model of the external order- and attribute-preserving XML builder on
one node. -/
def stringifyNode : XmlNode → String
  | .text s => s
  | .elem t attrs cs =>
    "<" ++ t ++ stringifyAttrs attrs ++ ">" ++ stringifyNodes cs ++ "</" ++ t ++ ">"

/-- Model of the external XML builder on a node sequence. -/
def stringifyNodes : List XmlNode → String
  | [] => ""
  | n :: ns => stringifyNode n ++ stringifyNodes ns

end

/-- The XML declaration prefixed to every generated part. -/
def xmlDeclaration : String :=
  "<?xml version=\"1.0\" encoding=\"UTF-8\" standalone=\"yes\"?>\n"

/-- WordprocessingML namespace constant. -/
def wNS : String := "http://schemas.openxmlformats.org/wordprocessingml/2006/main"

/-- Relationships namespace constant. -/
def rNS : String := "http://schemas.openxmlformats.org/officeDocument/2006/relationships"

/-- Package relationships namespace constant. -/
def pkgNS : String := "http://schemas.openxmlformats.org/package/2006/relationships"

/-- Content-types namespace constant. -/
def ctNS : String := "http://schemas.openxmlformats.org/package/2006/content-types"

/-- `Map.has` on the part store. -/
def fileHas (files : List (String × String)) (path : String) : Bool :=
  files.any (fun pc => pc.1 == path)

/-- `Map.set` on the part store: replace in place when the key exists,
else append (JavaScript `Map` insertion order). -/
def fileSet (files : List (String × String)) (path content : String) :
    List (String × String) :=
  if fileHas files path then
    files.map (fun pc => if pc.1 == path then (path, content) else pc)
  else files ++ [(path, content)]

/-- `Map.get` on the part store. -/
def fileLookup (files : List (String × String)) (path : String) : Option String :=
  (files.find? (fun pc => pc.1 == path)).map (fun pc => pc.2)

namespace Document

/-- `_createContentTypes()`. -/
def createContentTypes : String :=
  xmlDeclaration ++
    stringifyNodes
      [createElement "Types" [("xmlns", ctNS)]
        [createElement "Default"
          [("Extension", "rels"),
           ("ContentType", "application/vnd.openxmlformats-package.relationships+xml")] [],
         createElement "Default"
          [("Extension", "xml"), ("ContentType", "application/xml")] [],
         createElement "Override"
          [("PartName", "/word/document.xml"),
           ("ContentType",
            "application/vnd.openxmlformats-officedocument.wordprocessingml.document.main+xml")]
          []]]

/-- `_createRootRels()`. -/
def createRootRels : String :=
  xmlDeclaration ++
    stringifyNodes
      [createElement "Relationships" [("xmlns", pkgNS)]
        [createElement "Relationship"
          [("Id", "rId1"),
           ("Type",
            "http://schemas.openxmlformats.org/officeDocument/2006/relationships/officeDocument"),
           ("Target", "word/document.xml")] []]]

/-- `_createDocumentRels()`. -/
def createDocumentRels : String :=
  xmlDeclaration ++ stringifyNodes [createElement "Relationships" [("xmlns", pkgNS)] []]

/-- `_ensureBasicStructure()`: lazily create the three default
structural parts when absent (the source mutates the part-store map in
place; the successive map states are threaded here). -/
def ensureBasicStructure (d : Document) : Document :=
  let files := d.files
  let files :=
    if fileHas files "[Content_Types].xml" then files
    else fileSet files "[Content_Types].xml" createContentTypes
  let files :=
    if fileHas files "_rels/.rels" then files
    else fileSet files "_rels/.rels" createRootRels
  let files :=
    if fileHas files "word/_rels/document.xml.rels" then files
    else fileSet files "word/_rels/document.xml.rels" createDocumentRels
  { d with files := files }

/-- The default section-properties node (Letter size, one-inch
margins). -/
def defaultSectPr : XmlNode :=
  createElement "w:sectPr" []
    [createElement "w:pgSz" [("w:w", "12240"), ("w:h", "15840")] [],
     createElement "w:pgMar"
       [("w:top", "1440"), ("w:right", "1440"), ("w:bottom", "1440"), ("w:left", "1440"),
        ("w:header", "720"), ("w:footer", "720"), ("w:gutter", "0")] []]

/-- `_getNamespaceAttributes()`: collected declarations, or the minimal
default pair for a fresh document. -/
def getNamespaceAttributes (d : Document) : List (String × String) :=
  if 0 < d.namespaces.length then d.namespaces
  else [("xmlns:w", wNS), ("xmlns:r", rNS)]

/-- `_updateDocumentXml()`: body elements plus the (stored or default)
section properties, wrapped in the document root with its namespace
attributes, serialized behind the XML declaration and stored as the
primary document part. -/
def updateDocumentXml (d : Document) : Document :=
  let bodyChildren :=
    d.bodyElements ++ [match d.sectPr with | some sp => sp | none => defaultSectPr]
  let body := createElement "w:body" [] bodyChildren
  let namespaceAttrs := d.getNamespaceAttributes
  let documentNode := createElement "w:document" namespaceAttrs [body]
  { d with
    files := fileSet d.files "word/document.xml" (xmlDeclaration ++ stringifyNodes [documentNode]) }

/-- `_updateFiles()`: skip regeneration only when clean with a non-empty
part store, else ensure the default structure and regenerate the
primary part. -/
def updateFiles (d : Document) : Document :=
  if d.dirty = false ∧ d.files ≠ [] then d
  else (ensureBasicStructure d).updateDocumentXml

end Document

/-- `path.endsWith("/")`: whether a path names a directory entry,
modelled over the character sequence. -/
def endsWithSlash (s : String) : Bool :=
  match s.data.getLast? with
  | some c => c == '/'
  | none => false

/-- The exclusion rule of the external ZIP collaborator (applied both on
read and on write): directory-entry paths and empty contents are
excluded. -/
def zipFilter (files : List (String × String)) : List (String × String) :=
  files.filter (fun pc => !(endsWithSlash pc.1) && !(pc.2 == ""))

namespace Document

/-- `toBuffer()` up to the byte-level ZIP encoding: the part map the
external ZIP writer is handed, after `_updateFiles` and the writer's
exclusion rule. -/
def toBufferFiles (d : Document) : List (String × String) :=
  zipFilter d.updateFiles.files

/-- `_parseDocument` on the already-parsed node sequence: extract the
namespace declarations from the document root, the section-properties
child, and the remaining body children; a missing document or body root
degrades to an empty document. -/
def parseDocumentModel (d : Document) (parsed : List XmlNode) : Document :=
  match parsed.find? (fun n => isTag n "w:document") with
  | none => d
  | some documentNode =>
    let attrs := match documentNode with | .elem _ a _ => a | .text _ => []
    let d := { d with namespaces := attrs.filter (fun kv => kv.1.startsWith "xmlns") }
    let documentChildren := getChildren documentNode "w:document"
    match documentChildren.find? (fun n => isTag n "w:body") with
    | none => d
    | some bodyNode =>
      let bodyChildren := getChildren bodyNode "w:body"
      let d :=
        match bodyChildren.find? (fun n => isTag n "w:sectPr") with
        | some sp => { d with sectPr := some sp }
        | none => d
      { d with bodyElements := bodyChildren.filter (fun c => !(isTag c "w:sectPr")) }

/-- `fromBuffer(data)` up to the byte-level ZIP decoding: build the
document from the part map the external ZIP reader produced (the
reader's exclusion rule applied), parsing the primary document part via
the external XML parser `parse` when present. -/
def fromFiles (parse : String → List XmlNode) (raw : List (String × String)) : Document :=
  let files := zipFilter raw
  let d : Document :=
    { files := files, bodyElements := [], dirty := false, namespaces := [], sectPr := none }
  match fileLookup files "word/document.xml" with
  | some xml => d.parseDocumentModel (parse xml)
  | none => d

end Document

/-- The opening-brace character of the default placeholder pattern. -/
def braceOpen : Char := Char.ofNat 123

/-- The closing-brace character of the default placeholder pattern. -/
def braceClose : Char := Char.ofNat 125

/-- Modelled from the spec: the key character class of the default
placeholder pattern (alphanumeric, underscore, dot, hyphen). -/
def isKeyChar (c : Char) : Bool :=
  c.isAlphanum || c == '_' || c == '.' || c == '-'

/-- Modelled from the spec: template data with values already taken to
their textual representation (the default scalar-to-text conversion
applied); lookup of a key. -/
def lookupValue (data : List (String × String)) (key : String) : Option String :=
  (data.find? (fun kv => kv.1 == key)).map (fun kv => kv.2)

/-- Modelled from the spec: scan a placeholder key after an opening
brace; succeeds on one or more key characters followed by the closing
brace, returning the key and the remainder, and fails otherwise. -/
def scanKey : List Char → List Char → Option (String × List Char)
  | [], _ => none
  | c :: rest, acc =>
    if c == braceClose then
      if acc.isEmpty then none else some (String.mk acc, rest)
    else if isKeyChar c then scanKey rest (acc ++ [c])
    else none

/-- On success the remainder returned by `scanKey` is strictly shorter
than its input. -/
theorem scanKey_length_lt :
    ∀ (l acc : List Char) (k : String) (r : List Char),
      scanKey l acc = some (k, r) → r.length < l.length := by
  intro l
  induction l with
  | nil => intro acc k r h; simp [scanKey] at h
  | cons c rest ih =>
    intro acc k r h
    by_cases hc : (c == braceClose) = true
    · simp only [scanKey, hc, if_true] at h
      by_cases ha : acc.isEmpty = true
      · simp [ha] at h
      · simp only [ha, Bool.false_eq_true, if_false, Option.some.injEq, Prod.mk.injEq] at h
        simp [← h.2]
    · simp only [scanKey, hc, Bool.false_eq_true, if_false] at h
      by_cases hk : isKeyChar c = true
      · simp only [hk, if_true] at h
        exact Nat.lt_trans (ih _ k r h) (Nat.lt_succ_self _)
      · simp [hk] at h

/-- Modelled from the spec: one left-to-right, non-overlapping
substitution pass of the default pattern over a character sequence; a
matched placeholder whose key is bound is replaced by the bound value, a
matched placeholder with no data for its key is left verbatim (the
default `removeMissing: false`), and anything else is copied through. -/
def substChars (data : List (String × String)) : List Char → List Char
  | [] => []
  | c :: rest =>
    if c == braceOpen then
      match h : scanKey rest [] with
      | some (k, r) =>
        match lookupValue data k with
        | some v => v.data ++ substChars data r
        | none => c :: (k.data ++ braceClose :: substChars data r)
      | none => c :: substChars data rest
    else c :: substChars data rest
termination_by l => l.length
decreasing_by
  all_goals simp_wf
  all_goals first
    | exact Nat.lt_succ_of_lt (scanKey_length_lt rest [] k r h)
    | exact Nat.lt_succ_self _

/-- Modelled from the spec: the substitution pass on a string. -/
def substituteString (data : List (String × String)) (s : String) : String :=
  String.mk (substChars data s.data)

/-- Concatenated text of the text leaves directly under a `w:t` node. -/
def textValue (n : XmlNode) : String :=
  String.join ((getChildren n "w:t").map fun c =>
    match c with
    | .text s => s
    | .elem _ _ _ => "")

/-- Concatenated text of the `w:t` children of one run. -/
def runText (run : XmlNode) : String :=
  String.join ((getChildren run "w:r").map fun rc =>
    if isTag rc "w:t" then textValue rc else "")

/-- Modelled from the spec: the logical text of a paragraph — the
concatenation of the text of all text-leaf runs within it, in order. -/
def paragraphText (p : XmlNode) : String :=
  String.join ((getChildren p "w:p").map fun child =>
    if isTag child "w:r" then runText child else "")

/-- Modelled from the spec: the per-paragraph pass of the template
substitution engine — concatenate the text of all text runs of the
paragraph into one logical string, run the substitution pass over it,
and when the text changed write the result back as a single consolidated
text run replacing the original runs; a paragraph whose text is
unchanged is left identical. -/
def renderParagraph (data : List (String × String)) (p : XmlNode) : XmlNode :=
  match p with
  | .elem t attrs cs =>
    if t == "w:p" then
      let txt := paragraphText (.elem t attrs cs)
      let out := substituteString data txt
      if out == txt then .elem t attrs cs
      else .elem t attrs [createElement "w:r" [] [createElement "w:t" [] [.text out]]]
    else .elem t attrs cs
  | .text s => .text s

mutual

/-- Modelled from the spec: the substitution pass applied to one body
element — paragraphs get the per-paragraph pass, every other element is
traversed recursively so that paragraphs inside table cells are reached
as well. -/
def renderElement (data : List (String × String)) : XmlNode → XmlNode
  | .text s => .text s
  | .elem t attrs cs =>
    if t == "w:p" then renderParagraph data (.elem t attrs cs)
    else .elem t attrs (renderElements data cs)

/-- Modelled from the spec: the substitution pass on an element
sequence. -/
def renderElements (data : List (String × String)) : List XmlNode → List XmlNode
  | [] => []
  | n :: ns => renderElement data n :: renderElements data ns

end

namespace Document

/-- Modelled from the spec: `render(data)` restricted to the document
body (the engine additionally runs the same per-paragraph pass over
header and footer parts discovered through relationship records; that
related-part discovery is not needed for the body-paragraph properties
proved here).  The body is rewritten in place and the document marked
dirty. -/
def render (d : Document) (data : List (String × String)) : Document :=
  { d with dirty := true, bodyElements := renderElements data d.bodyElements }

end Document

/-! ## Closed-form characterisation of the page scan

`splitAtBreaks` cuts a body-element list into the maximal chunks each
terminated by its break-bearing element, plus the break-free trailing
remainder; `chunkPages` rebuilds the emitted `PageInfo` ranges from the
chunk lengths.  The correspondence theorem below lets every page-level
property be read off this closed form. -/

/-- Split a body-element list into break-terminated chunks and the
break-free tail. -/
def splitAtBreaks : List XmlNode → List (List XmlNode) × List XmlNode
  | [] => ([], [])
  | e :: rest =>
    let r := splitAtBreaks rest
    if hasPageBreak e then ([e] :: r.1, r.2)
    else
      match r.1 with
      | [] => ([], e :: r.2)
      | c :: cs => ((e :: c) :: cs, r.2)

/-- Total length of a chunk list. -/
def sumLen (chunks : List (List XmlNode)) : Nat :=
  (chunks.map List.length).sum

/-- The `PageInfo` ranges generated by a chunk list: the first page runs
from `start` to the end of the first chunk placed at `pos`, and each
following page starts right after the previous chunk. -/
def chunkPages : List (List XmlNode) → Nat → Nat → Nat → List PageInfo
  | [], _, _, _ => []
  | c :: rest, start, pos, pi =>
    ⟨pi, (start : Int), ((pos + c.length : Nat) : Int) - 1⟩ ::
      chunkPages rest (pos + c.length) (pos + c.length) (pi + 1)

/-- Closed form of `getPagesList`. -/
def getPagesSpec (body : List XmlNode) : List PageInfo :=
  let s := splitAtBreaks body
  let chunks := s.1
  let tail := s.2
  let base := chunkPages chunks 0 0 0
  if tail.isEmpty then
    if chunks.isEmpty then [⟨0, -1, -1⟩]
    else base ++ [⟨chunks.length, -1, -1⟩]
  else base ++ [⟨chunks.length, (sumLen chunks : Int), (body.length : Int) - 1⟩]

/-- Ordered gap- and overlap-free coverage of `[s, t)` by inclusive
page ranges. -/
def isChain : Int → List PageInfo → Int → Bool
  | s, [], t => s == t
  | s, p :: ps, t =>
    p.startElement == s && decide (s ≤ p.endElement) && isChain (p.endElement + 1) ps t

/-- Whether the last entry of a page list is the `(-1, -1)` sentinel. -/
def lastIsSentinel (pages : List PageInfo) : Bool :=
  match pages.getLast? with
  | some p => p.startElement == -1
  | none => false

/-- A page list with any trailing sentinel removed. -/
def realPages (pages : List PageInfo) : List PageInfo :=
  if lastIsSentinel pages then pages.dropLast else pages

/-- The number of break-bearing body elements. -/
def countBreaks (body : List XmlNode) : Nat :=
  body.countP hasPageBreak

/-- The scan loop in closed form: its pages are the chunk pages, its
final cursor sits right after the last chunk, and its final page index
advances by the number of chunks. -/
theorem getPagesAux_eq (l : List XmlNode) :
    ∀ i currentPageStart pageIndex, currentPageStart ≤ i →
      getPagesAux l i currentPageStart pageIndex =
        (chunkPages (splitAtBreaks l).1 currentPageStart i pageIndex,
         (if (splitAtBreaks l).1.isEmpty then currentPageStart
          else i + sumLen (splitAtBreaks l).1),
         pageIndex + (splitAtBreaks l).1.length) := by
  induction l with
  | nil => intro i cs pi _; simp [getPagesAux, splitAtBreaks, chunkPages]
  | cons e rest ih =>
    intro i cs pi hcs
    by_cases hb : hasPageBreak e = true
    · simp only [getPagesAux, hb, if_true]
      rw [ih (i + 1) (i + 1) (pi + 1) (Nat.le_refl _)]
      simp only [splitAtBreaks, hb, if_true, chunkPages, Prod.mk.injEq,
        List.isEmpty_cons, List.length_cons, List.length_singleton]
      refine ⟨?_, ?_, ?_⟩
      · simp only [List.length_nil, Nat.zero_add]
        congr 1
        simp only [PageInfo.mk.injEq]
        refine ⟨trivial, trivial, ?_⟩
        push_cast
        ring
      · simp only [Bool.false_eq_true, if_false, sumLen, List.map_cons, List.sum_cons,
          List.length_singleton]
        by_cases hrest : (splitAtBreaks rest).1.isEmpty = true
        · rw [if_pos hrest, List.isEmpty_iff.mp hrest]
          simp
        · rw [if_neg hrest]
          omega
      · omega
    · simp only [getPagesAux, hb, Bool.false_eq_true, if_false]
      rw [ih (i + 1) cs pi (Nat.le_succ_of_le hcs)]
      simp only [splitAtBreaks, hb, Bool.false_eq_true, if_false]
      cases hrest : (splitAtBreaks rest).1 with
      | nil => simp [hrest, chunkPages]
      | cons c cs' =>
        simp only [hrest, chunkPages, List.isEmpty_cons, Bool.false_eq_true, if_false,
          List.length_cons, Prod.mk.injEq]
        refine ⟨?_, ?_, ?_⟩
        · have harith : i + 1 + c.length = i + (c.length + 1) := by omega
          rw [harith]
        · simp only [sumLen, List.map_cons, List.sum_cons, List.length_cons]
          omega
        · trivial

/-- The chunks and the tail reassemble to the original list. -/
theorem splitAtBreaks_join (l : List XmlNode) :
    (splitAtBreaks l).1.flatten ++ (splitAtBreaks l).2 = l := by
  induction l with
  | nil => simp [splitAtBreaks]
  | cons e rest ih =>
    rcases hsp : splitAtBreaks rest with ⟨chunks, tail⟩
    rw [hsp] at ih
    by_cases hb : hasPageBreak e = true
    · simp only [splitAtBreaks, hb, if_true, hsp]
      simpa using ih
    · simp only [splitAtBreaks, hb, Bool.false_eq_true, if_false, hsp]
      cases chunks with
      | nil =>
        simp only [List.flatten_nil, List.nil_append] at ih ⊢
        rw [ih]
      | cons c cs' =>
        simp only [List.flatten_cons, List.cons_append, List.append_assoc] at ih ⊢
        rw [ih]

/-- Every chunk consists of break-free elements terminated by a single
break-bearing element. -/
theorem splitAtBreaks_chunks (l : List XmlNode) :
    ∀ c ∈ (splitAtBreaks l).1,
      ∃ c' b, c = c' ++ [b] ∧ hasPageBreak b = true ∧ ∀ x ∈ c', hasPageBreak x = false := by
  induction l with
  | nil => simp [splitAtBreaks]
  | cons e rest ih =>
    intro c hc
    rcases hsp : splitAtBreaks rest with ⟨chunks, tail⟩
    rw [hsp] at ih
    by_cases hb : hasPageBreak e = true
    · simp only [splitAtBreaks, hb, if_true, hsp, List.mem_cons] at hc
      rcases hc with hc | hc
      · exact ⟨[], e, by simp [hc], hb, by simp⟩
      · exact ih c hc
    · simp only [splitAtBreaks, hb, Bool.false_eq_true, if_false, hsp] at hc
      cases chunks with
      | nil => simp at hc
      | cons c0 cs' =>
        simp only [List.mem_cons] at hc
        rcases hc with hc | hc
        · obtain ⟨c', b, hsplit, hbb, hfree⟩ := ih c0 (List.mem_cons_self _ _)
          refine ⟨e :: c', b, ?_, hbb, ?_⟩
          · rw [hc, hsplit]
            rfl
          · intro x hx
            rcases List.mem_cons.mp hx with hx | hx
            · rw [hx]
              simpa using hb
            · exact hfree x hx
        · exact ih c (List.mem_cons_of_mem _ hc)

/-- The tail of the split is break-free. -/
theorem splitAtBreaks_tail (l : List XmlNode) :
    ∀ x ∈ (splitAtBreaks l).2, hasPageBreak x = false := by
  induction l with
  | nil => simp [splitAtBreaks]
  | cons e rest ih =>
    intro x hx
    rcases hsp : splitAtBreaks rest with ⟨chunks, tail⟩
    rw [hsp] at ih
    by_cases hb : hasPageBreak e = true
    · simp only [splitAtBreaks, hb, if_true, hsp] at hx
      exact ih x hx
    · simp only [splitAtBreaks, hb, Bool.false_eq_true, if_false, hsp] at hx
      cases chunks with
      | nil =>
        simp only [List.mem_cons] at hx
        rcases hx with hx | hx
        · rw [hx]; simpa using hb
        · exact ih x hx
      | cons c0 cs' =>
        exact ih x hx

/-- There are exactly as many chunks as break-bearing elements. -/
theorem splitAtBreaks_count (l : List XmlNode) :
    (splitAtBreaks l).1.length = countBreaks l := by
  induction l with
  | nil => simp [splitAtBreaks, countBreaks]
  | cons e rest ih =>
    rcases hsp : splitAtBreaks rest with ⟨chunks, tail⟩
    rw [hsp] at ih
    by_cases hb : hasPageBreak e = true
    · simp only [splitAtBreaks, hb, if_true, hsp, List.length_cons, countBreaks,
        List.countP_cons]
      rw [countBreaks] at ih
      simp [hb, ← ih]
    · simp only [splitAtBreaks, hb, Bool.false_eq_true, if_false, hsp, countBreaks,
        List.countP_cons]
      rw [countBreaks] at ih
      cases chunks with
      | nil => simp [hb, ← ih]
      | cons c0 cs' =>
        simp only [List.length_cons] at ih ⊢
        simp [hb, ← ih]

/-- `chunkPages` yields one page per chunk. -/
theorem chunkPages_length (chunks : List (List XmlNode)) :
    ∀ start pos pi, (chunkPages chunks start pos pi).length = chunks.length := by
  induction chunks with
  | nil => intro start pos pi; simp [chunkPages]
  | cons c rest ih => intro start pos pi; simp [chunkPages, ih]

/-- Body length decomposes over the split. -/
theorem splitAtBreaks_length (l : List XmlNode) :
    l.length = sumLen (splitAtBreaks l).1 + (splitAtBreaks l).2.length := by
  conv_lhs => rw [← splitAtBreaks_join l]
  simp [sumLen, List.length_join]

/-- `getPages()` equals its closed form. -/
theorem getPagesList_eq_spec (body : List XmlNode) :
    getPagesList body = getPagesSpec body := by
  unfold getPagesList getPagesSpec
  rw [getPagesAux_eq body 0 0 0 (Nat.le_refl 0)]
  have hlen := splitAtBreaks_length body
  cases hch : (splitAtBreaks body).1 with
  | nil =>
    rw [hch] at hlen
    simp only [hch, List.isEmpty_nil, if_true, chunkPages, List.length_nil, sumLen,
      List.map_nil, List.sum_nil] at hlen ⊢
    cases htl : (splitAtBreaks body).2 with
    | nil =>
      rw [htl] at hlen
      simp only [List.length_nil] at hlen
      simp [hlen]
    | cons t ts =>
      rw [htl] at hlen
      simp only [List.length_cons] at hlen
      have hpos : 0 < body.length := by omega
      simp [hpos, Nat.pos_iff_ne_zero, htl]
  | cons c cs' =>
    rw [hch] at hlen
    simp only [hch, List.isEmpty_cons, Bool.false_eq_true, if_false]
    cases htl : (splitAtBreaks body).2 with
    | nil =>
      rw [htl] at hlen
      simp only [List.length_nil, Nat.add_zero] at hlen
      have hnotlt : ¬ sumLen (c :: cs') < body.length := by omega
      simp only [Nat.zero_add, hnotlt, if_false, List.isEmpty_nil, if_true,
        List.isEmpty_cons, Bool.false_eq_true]
      have hplen : 0 < (chunkPages (c :: cs') 0 0 0).length := by
        rw [chunkPages_length]
        simp
      simp [hplen, chunkPages_length]
    | cons t ts =>
      rw [htl] at hlen
      simp only [List.length_cons] at hlen
      have hlt : sumLen (c :: cs') < body.length := by omega
      simp only [Nat.zero_add, hlt, if_true]
      simp [htl, chunkPages_length]

/-- Every document reports one page more than it has break-bearing
elements. -/
theorem getPagesList_length (body : List XmlNode) :
    (getPagesList body).length = countBreaks body + 1 := by
  rw [getPagesList_eq_spec]
  have hcount := splitAtBreaks_count body
  simp only [getPagesSpec]
  rcases hsp : splitAtBreaks body with ⟨chunks, tail⟩
  rw [hsp] at hcount
  simp only at hcount ⊢
  cases htl : tail.isEmpty with
  | true =>
    cases hch : chunks.isEmpty with
    | true =>
      simp only [if_true, List.length_singleton]
      rw [List.isEmpty_iff.mp hch] at hcount
      simpa using hcount.symm
    | false => simp [chunkPages_length, ← hcount]
  | false => simp [chunkPages_length, ← hcount]

/-- The page ranges generated from nonempty chunks cover `[pos, pos +
total length)` as an ordered, gapless, overlap-free chain. -/
theorem chunkPages_chain (chunks : List (List XmlNode)) :
    ∀ (pos pi : Nat), (∀ c ∈ chunks, c ≠ []) →
      isChain (pos : Int) (chunkPages chunks pos pos pi)
        ((pos + sumLen chunks : Nat) : Int) = true := by
  induction chunks with
  | nil =>
    intro pos pi _
    simp [chunkPages, isChain, sumLen]
  | cons c rest ih =>
    intro pos pi hne
    have hc : c ≠ [] := hne c (List.mem_cons_self _ _)
    have hclen : 0 < c.length := List.length_pos.mpr hc
    simp only [chunkPages, isChain, Bool.and_eq_true, beq_iff_eq, decide_eq_true_eq]
    refine ⟨⟨trivial, by omega⟩, ?_⟩
    have harith : ((pos + c.length : Nat) : Int) - 1 + 1 = ((pos + c.length : Nat) : Int) := by
      omega
    have harith2 : pos + sumLen (c :: rest) = pos + c.length + sumLen rest := by
      simp only [sumLen, List.map_cons, List.sum_cons]
      omega
    rw [harith, harith2]
    exact ih (pos + c.length) (pi + 1) (fun c hc => hne c (List.mem_cons_of_mem _ hc))

/-- Appending one final range extends a chain. -/
theorem isChain_append (ps : List PageInfo) :
    ∀ (s m t : Int) (p : PageInfo), isChain s ps m = true →
      p.startElement = m → p.endElement = t - 1 → m ≤ t - 1 →
      isChain s (ps ++ [p]) t = true := by
  induction ps with
  | nil =>
    intro s m t p hchain hs he hle
    simp only [isChain, beq_iff_eq] at hchain
    simp only [List.nil_append, isChain, Bool.and_eq_true, beq_iff_eq, decide_eq_true_eq]
    refine ⟨⟨by omega, by omega⟩, ?_⟩
    simp only [he, beq_iff_eq]
    omega
  | cons q qs ih =>
    intro s m t p hchain hs he hle
    simp only [isChain, Bool.and_eq_true] at hchain
    simp only [List.cons_append, isChain, Bool.and_eq_true]
    exact ⟨hchain.1, ih _ m t p hchain.2 hs he hle⟩

/-- The last range of a nonempty chain ends right before the chain's
upper bound. -/
theorem isChain_last (ps : List PageInfo) :
    ∀ (s t : Int) (p : PageInfo), isChain s ps t = true → ps.getLast? = some p →
      p.endElement = t - 1 := by
  induction ps with
  | nil => intro s t p _ hlast; simp at hlast
  | cons q qs ih =>
    intro s t p hchain hlast
    simp only [isChain, Bool.and_eq_true] at hchain
    cases qs with
    | nil =>
      simp only [List.getLast?_singleton, Option.some.injEq] at hlast
      subst hlast
      simp only [isChain, beq_iff_eq] at hchain
      have := hchain.2
      omega
    | cons r rs =>
      rw [List.getLast?_cons_cons] at hlast
      exact ih _ _ p hchain.2 hlast

/-- One unfolding step of the split, break case. -/
theorem splitAtBreaks_cons_break (e : XmlNode) (rest : List XmlNode)
    (hb : hasPageBreak e = true) :
    splitAtBreaks (e :: rest) = ([e] :: (splitAtBreaks rest).1, (splitAtBreaks rest).2) := by
  simp [splitAtBreaks, hb]

/-- One unfolding step of the split, break-free head in front of a
chunk-free remainder. -/
theorem splitAtBreaks_cons_free_nil (e : XmlNode) (rest : List XmlNode)
    (hb : hasPageBreak e = false) (hch : (splitAtBreaks rest).1 = []) :
    splitAtBreaks (e :: rest) = ([], e :: (splitAtBreaks rest).2) := by
  simp [splitAtBreaks, hb, hch]

/-- One unfolding step of the split, break-free head absorbed into the
first chunk of the remainder. -/
theorem splitAtBreaks_cons_free_cons (e : XmlNode) (rest : List XmlNode)
    (c : List XmlNode) (cs : List (List XmlNode))
    (hb : hasPageBreak e = false) (hch : (splitAtBreaks rest).1 = c :: cs) :
    splitAtBreaks (e :: rest) = ((e :: c) :: cs, (splitAtBreaks rest).2) := by
  simp [splitAtBreaks, hb, hch]

/-- The break status of the final body element decides whether the split
has an empty tail. -/
theorem splitAtBreaks_last (l : List XmlNode) :
    ∀ e, l.getLast? = some e →
      ((splitAtBreaks l).2 = [] → hasPageBreak e = true) ∧
      ((splitAtBreaks l).2 ≠ [] → hasPageBreak e = false) := by
  induction l with
  | nil => intro e he; simp at he
  | cons x rest ih =>
    intro e he
    cases rest with
    | nil =>
      simp only [List.getLast?_singleton, Option.some.injEq] at he
      subst he
      by_cases hb : hasPageBreak x = true
      · simp [splitAtBreaks, hb]
      · simp [splitAtBreaks, hb]
    | cons y ys =>
      rw [List.getLast?_cons_cons] at he
      rcases hsp : splitAtBreaks (y :: ys) with ⟨chunks, tail⟩
      have ihe := ih e he
      rw [hsp] at ihe
      simp only at ihe
      by_cases hb : hasPageBreak x = true
      · rw [splitAtBreaks_cons_break x (y :: ys) hb, hsp]
        exact ihe
      · cases chunks with
        | nil =>
          have hb' : hasPageBreak x = false := by simpa using hb
          rw [splitAtBreaks_cons_free_nil x (y :: ys) hb' (by rw [hsp]), hsp]
          have hjoin := splitAtBreaks_join (y :: ys)
          rw [hsp] at hjoin
          simp only [List.flatten_nil, List.nil_append] at hjoin
          have htail_ne : tail ≠ [] := by
            intro hcon
            rw [hcon] at hjoin
            simp at hjoin
          constructor
          · intro hcon
            simp at hcon
          · intro _
            exact ihe.2 htail_ne
        | cons c cs' =>
          have hb' : hasPageBreak x = false := by simpa using hb
          rw [splitAtBreaks_cons_free_cons x (y :: ys) c cs' hb' (by rw [hsp]), hsp]
          exact ihe

/-- `lastIsSentinel` on a list ending in an explicit entry. -/
theorem lastIsSentinel_concat (ps : List PageInfo) (p : PageInfo) :
    lastIsSentinel (ps ++ [p]) = (p.startElement == -1) := by
  simp [lastIsSentinel, List.getLast?_concat]

/-- Chunks produced by the split are nonempty. -/
theorem splitAtBreaks_chunk_ne_nil (l : List XmlNode) :
    ∀ c ∈ (splitAtBreaks l).1, c ≠ [] := by
  intro c hc
  obtain ⟨c', b, hsplit, _, _⟩ := splitAtBreaks_chunks l c hc
  rw [hsplit]
  simp

/-- C1: on a body whose break-bearing elements sit at positions
`p1 < … < pk`, `getPages()` yields exactly `k + 1` entries; an empty
body yields the single `(-1, -1)` sentinel page; for a nonempty body the
trailing entry is the `(-1, -1)` sentinel exactly when the last body
element is itself a break, and the remaining entries partition
`[0, lastIndex]` in order with no gaps or overlaps.  In particular a
document with exactly `N` page breaks and nothing else reports page
count `N + 1`. -/
theorem getPages_partition (body : List XmlNode) :
    (getPagesList body).length = countBreaks body + 1 ∧
    (body = [] → getPagesList body = [⟨0, -1, -1⟩]) ∧
    ∀ e, body.getLast? = some e →
      lastIsSentinel (getPagesList body) = hasPageBreak e ∧
      isChain 0 (realPages (getPagesList body)) (body.length : Int) = true := by
  refine ⟨getPagesList_length body, ?_, ?_⟩
  · intro h
    subst h
    rfl
  · intro e he
    rw [getPagesList_eq_spec]
    rcases hsp : splitAtBreaks body with ⟨chunks, tail⟩
    have hlast := splitAtBreaks_last body e he
    have hlen := splitAtBreaks_length body
    have hjoin := splitAtBreaks_join body
    have hne := splitAtBreaks_chunk_ne_nil body
    rw [hsp] at hlast hlen hjoin hne
    simp only at hlast hlen hjoin hne
    have hchain0 := chunkPages_chain chunks 0 0 hne
    simp only [Nat.zero_add] at hchain0
    simp only [getPagesSpec, hsp]
    cases htl : tail with
    | nil =>
      have hchne : chunks ≠ [] := by
        intro hcon
        rw [hcon, htl] at hjoin
        simp only [List.flatten_nil, List.nil_append] at hjoin
        rw [← hjoin] at he
        simp at he
      simp only [htl, List.isEmpty_nil, if_true]
      rw [if_neg (by simpa using hchne)]
      constructor
      · rw [lastIsSentinel_concat]
        simp [(hlast.1 (by rw [htl]))]
      · rw [realPages, lastIsSentinel_concat]
        simp only [beq_self_eq_true, if_true, List.dropLast_concat]
        rw [htl] at hlen
        simp only [List.length_nil, Nat.add_zero] at hlen
        rw [hlen]
        exact hchain0
    | cons t ts =>
      simp only [htl, List.isEmpty_cons, Bool.false_eq_true, if_false]
      have hfree : hasPageBreak e = false := hlast.2 (by rw [htl]; simp)
      have hsum_lt : sumLen chunks < body.length := by
        rw [htl] at hlen
        simp only [List.length_cons] at hlen
        omega
      constructor
      · rw [lastIsSentinel_concat, hfree]
        simp only [beq_iff_eq]
        simp only [beq_eq_false_iff_ne]
        omega
      · rw [realPages, lastIsSentinel_concat]
        rw [if_neg (by simp only [beq_iff_eq]; omega)]
        refine isChain_append _ 0 (sumLen chunks : Int) (body.length : Int) _ hchain0 rfl rfl ?_
        omega

/-- `countBreaks` distributes over append. -/
theorem countBreaks_append (a b : List XmlNode) :
    countBreaks (a ++ b) = countBreaks a + countBreaks b := by
  simp [countBreaks, List.countP_append]

/-- Each chunk contains exactly one break-bearing element. -/
theorem countBreaks_chunk (l : List XmlNode) :
    ∀ c ∈ (splitAtBreaks l).1, countBreaks c = 1 := by
  intro c hc
  obtain ⟨c', b, hs, hb, hfree⟩ := splitAtBreaks_chunks l c hc
  subst hs
  rw [countBreaks_append]
  have h0 : countBreaks c' = 0 := by
    simp only [countBreaks]
    rw [List.countP_eq_zero]
    intro a ha
    simp [hfree a ha]
  rw [h0]
  simp [countBreaks, List.countP_cons, hb]

/-- A list of single-break chunks flattens to as many breaks as
chunks. -/
theorem countBreaks_join (cl : List (List XmlNode)) :
    (∀ c ∈ cl, countBreaks c = 1) → countBreaks cl.flatten = cl.length := by
  induction cl with
  | nil => intro _; simp [countBreaks]
  | cons c rest ih =>
    intro h
    simp only [List.flatten_cons, countBreaks_append, List.length_cons]
    rw [h c (List.mem_cons_self _ _), ih (fun c hc => h c (List.mem_cons_of_mem _ hc))]
    simp [Nat.add_comm]

/-- The split's tail holds no breaks. -/
theorem countBreaks_tail (l : List XmlNode) :
    countBreaks (splitAtBreaks l).2 = 0 := by
  simp only [countBreaks]
  rw [List.countP_eq_zero]
  intro a ha
  simp [splitAtBreaks_tail l a ha]

/-- `sumLen` distributes over append. -/
theorem sumLen_append (a b : List (List XmlNode)) :
    sumLen (a ++ b) = sumLen a + sumLen b := by
  simp [sumLen]

/-- Prefix and suffix of a flattened chunk list at a chunk boundary. -/
theorem join_take_drop (chunks : List (List XmlNode)) (tail : List XmlNode) (i : Nat) :
    (chunks.flatten ++ tail).take (sumLen (chunks.take i)) = (chunks.take i).flatten ∧
    (chunks.flatten ++ tail).drop (sumLen (chunks.take i)) = (chunks.drop i).flatten ++ tail := by
  have hsplit : chunks.flatten = (chunks.take i).flatten ++ (chunks.drop i).flatten := by
    rw [← List.flatten_append, List.take_append_drop]
  have hlen : ((chunks.take i).flatten).length = sumLen (chunks.take i) := by
    rw [List.length_join]
    rfl
  constructor
  · rw [hsplit, List.append_assoc, ← hlen, List.take_left]
  · rw [hsplit, List.append_assoc, ← hlen, List.drop_left]

/-- The page emitted for the `i`-th chunk, in closed form. -/
theorem chunkPages_getD (chunks : List (List XmlNode)) :
    ∀ (pos pi i : Nat), i < chunks.length →
      (chunkPages chunks pos pos pi).getD i ⟨0, 0, 0⟩ =
        ⟨pi + i, ((pos + sumLen (chunks.take i) : Nat) : Int),
         ((pos + sumLen (chunks.take (i + 1)) : Nat) : Int) - 1⟩ := by
  induction chunks with
  | nil => intro pos pi i h; simp at h
  | cons c rest ih =>
    intro pos pi i h
    cases i with
    | zero =>
      simp [chunkPages, sumLen, List.getD_cons_zero]
    | succ j =>
      simp only [chunkPages, List.getD_cons_succ]
      rw [ih (pos + c.length) (pi + 1) j (by simpa using h)]
      simp only [List.take_succ_cons, sumLen, List.map_cons, List.sum_cons,
        PageInfo.mk.injEq]
      refine ⟨by omega, by omega, by omega⟩

/-- Evaluation of `removePage` at an in-bounds natural index: the
bounds check passes and the integer index arithmetic collapses. -/
theorem removePage_eval (d : Document) (i : Nat)
    (h : i < (getPagesList d.bodyElements).length) :
    d.removePage i =
      (if ((getPagesList d.bodyElements).getD i ⟨0, 0, 0⟩).startElement = -1 then
        if 0 < (i : Int) ∧
            0 ≤ ((getPagesList d.bodyElements).getD (i - 1) ⟨0, 0, 0⟩).endElement then
          .ok { d with
            dirty := true,
            bodyElements := spliceList d.bodyElements
              ((getPagesList d.bodyElements).getD (i - 1) ⟨0, 0, 0⟩).endElement.toNat 1 }
        else .ok { d with dirty := true }
      else
        .ok { d with
          dirty := true,
          bodyElements := spliceList d.bodyElements
            ((getPagesList d.bodyElements).getD i ⟨0, 0, 0⟩).startElement.toNat
            (((getPagesList d.bodyElements).getD i ⟨0, 0, 0⟩).endElement -
              ((getPagesList d.bodyElements).getD i ⟨0, 0, 0⟩).startElement + 1).toNat }) := by
  unfold Document.removePage Document.getPages
  rw [if_neg]
  · simp only [Int.toNat_natCast]
  · push_neg
    constructor
    · exact_mod_cast Nat.zero_le i
    · exact_mod_cast h

/-- `getD` at the final appended element. -/
theorem getD_concat_length (l : List PageInfo) (x d0 : PageInfo) :
    (l ++ [x]).getD l.length d0 = x := by
  induction l with
  | nil => rfl
  | cons a t ih => simpa using ih

/-- Decomposition of a chunk list around its `i`-th chunk. -/
theorem chunks_decomp (chunks : List (List XmlNode)) :
    ∀ i, i < chunks.length →
      ∃ c, c ∈ chunks ∧ chunks.take (i + 1) = chunks.take i ++ [c] ∧
        chunks.drop i = c :: chunks.drop (i + 1) := by
  induction chunks with
  | nil => intro i h; simp at h
  | cons a t ih =>
    intro i h
    cases i with
    | zero => exact ⟨a, List.mem_cons_self _ _, by simp, by simp⟩
    | succ j =>
      obtain ⟨c, hmem, ht, hd⟩ := ih j (by simpa using h)
      refine ⟨c, List.mem_cons_of_mem _ hmem, ?_, ?_⟩
      · simp [List.take_succ_cons, ht]
      · simpa [List.drop_succ_cons] using hd

/-- In-bounds `getD` on `getPagesList` returns the chunk page. -/
theorem getPagesList_getD_chunk (body : List XmlNode) (i : Nat)
    (hi : i < (splitAtBreaks body).1.length) :
    (getPagesList body).getD i ⟨0, 0, 0⟩ =
      ⟨i, (sumLen ((splitAtBreaks body).1.take i) : Int),
       ((sumLen ((splitAtBreaks body).1.take (i + 1)) : Nat) : Int) - 1⟩ := by
  rcases hsp : splitAtBreaks body with ⟨chunks, tail⟩
  rw [hsp] at hi
  simp only at hi ⊢
  have hspec := getPagesList_eq_spec body
  simp only [getPagesSpec, hsp] at hspec
  have hbase := chunkPages_getD chunks 0 0 i hi
  simp only [Nat.zero_add] at hbase
  rw [hspec]
  by_cases htl : tail.isEmpty = true
  · by_cases hch : chunks.isEmpty = true
    · exfalso
      rw [List.isEmpty_iff.mp hch] at hi
      simp at hi
    · simp only [htl, if_true, hch, Bool.false_eq_true, if_false]
      rw [List.getD_append _ _ _ _ (by rw [chunkPages_length]; exact hi), hbase]
  · simp only [htl, Bool.false_eq_true, if_false]
    rw [List.getD_append _ _ _ _ (by rw [chunkPages_length]; exact hi), hbase]

/-- Removing a break-terminated page (any page whose range ends at a
break-bearing element) decreases the page count by exactly one. -/
theorem removePage_chunkCase (d : Document) (i : Nat)
    (hi : i < (splitAtBreaks d.bodyElements).1.length) :
    ∃ d', d.removePage i = .ok d' ∧
      d'.files = d.files ∧ d'.namespaces = d.namespaces ∧ d'.sectPr = d.sectPr ∧
      d'.dirty = true ∧
      (getPagesList d'.bodyElements).length + 1 = (getPagesList d.bodyElements).length := by
  rcases hsp : splitAtBreaks d.bodyElements with ⟨chunks, tail⟩
  have hi' := hi
  rw [hsp] at hi'
  simp only at hi'
  have hjoin := splitAtBreaks_join d.bodyElements
  have hone := countBreaks_chunk d.bodyElements
  have htail0 := countBreaks_tail d.bodyElements
  have hK := splitAtBreaks_count d.bodyElements
  rw [hsp] at hjoin hone htail0 hK
  simp only at hjoin hone htail0 hK
  have hcnt : (getPagesList d.bodyElements).length = chunks.length + 1 := by
    rw [getPagesList_length, ← hK]
  have hbound : i < (getPagesList d.bodyElements).length := by omega
  have hgetD := getPagesList_getD_chunk d.bodyElements i hi
  rw [hsp] at hgetD
  simp only at hgetD
  obtain ⟨c, hcmem, htake, hdrop⟩ := chunks_decomp chunks i hi'
  have hsum_succ : sumLen (chunks.take (i + 1)) = sumLen (chunks.take i) + c.length := by
    rw [htake, sumLen_append]
    simp [sumLen]
  rw [removePage_eval d i hbound, hgetD]
  rw [if_neg (by simp only; omega)]
  simp only
  refine ⟨_, rfl, rfl, rfl, rfl, rfl, ?_⟩
  have hcast : ((sumLen (chunks.take i) : Nat) : Int).toNat = sumLen (chunks.take i) :=
    Int.toNat_natCast _
  have hcnt_cast :
      (((sumLen (chunks.take (i + 1)) : Nat) : Int) - 1 - (sumLen (chunks.take i) : Nat) +
        1).toNat = c.length := by
    have : (((sumLen (chunks.take (i + 1)) : Nat) : Int) - 1 -
        (sumLen (chunks.take i) : Nat) + 1) = ((c.length : Nat) : Int) := by
      push_cast [hsum_succ]
      ring
    rw [this, Int.toNat_natCast]
  rw [hcast, hcnt_cast]
  have htake_eq := (join_take_drop chunks tail i).1
  have hdrop_eq := (join_take_drop chunks tail (i + 1)).2
  rw [hjoin] at htake_eq hdrop_eq
  have hnew : spliceList d.bodyElements (sumLen (chunks.take i)) c.length =
      (chunks.take i).flatten ++ ((chunks.drop (i + 1)).flatten ++ tail) := by
    unfold spliceList
    rw [htake_eq, ← hsum_succ, hdrop_eq]
  simp only [hnew]
  rw [getPagesList_length]
  have hcb : countBreaks ((chunks.take i).flatten ++ ((chunks.drop (i + 1)).flatten ++ tail)) =
      chunks.length - 1 := by
    rw [countBreaks_append, countBreaks_append]
    rw [countBreaks_join _ (fun c hc => hone c (List.take_subset _ _ hc)),
      countBreaks_join _ (fun c hc => hone c (List.drop_subset _ _ hc)), htail0]
    rw [List.length_take, List.length_drop]
    omega
  rw [hcb]
  omega

/-- Removing the final content page of a document whose body does not
end in a break leaves the page count unchanged: the remaining body then
ends in the previous break, whose trailing sentinel page replaces the
removed one. -/
theorem removePage_tailCase (d : Document)
    (htl : (splitAtBreaks d.bodyElements).2 ≠ []) :
    ∃ d', d.removePage ((splitAtBreaks d.bodyElements).1.length) = .ok d' ∧
      d'.files = d.files ∧ d'.namespaces = d.namespaces ∧ d'.sectPr = d.sectPr ∧
      d'.dirty = true ∧
      (getPagesList d'.bodyElements).length = (getPagesList d.bodyElements).length := by
  rcases hsp : splitAtBreaks d.bodyElements with ⟨chunks, tail⟩
  rw [hsp] at htl
  simp only at htl ⊢
  have hjoin := splitAtBreaks_join d.bodyElements
  have hone := countBreaks_chunk d.bodyElements
  have hK := splitAtBreaks_count d.bodyElements
  have hlen := splitAtBreaks_length d.bodyElements
  rw [hsp] at hjoin hone hK hlen
  simp only at hjoin hone hK hlen
  have hcnt : (getPagesList d.bodyElements).length = chunks.length + 1 := by
    rw [getPagesList_length, ← hK]
  have hbound : chunks.length < (getPagesList d.bodyElements).length := by omega
  have hspec := getPagesList_eq_spec d.bodyElements
  simp only [getPagesSpec, hsp] at hspec
  have htl' : tail.isEmpty = false := by
    cases tail with
    | nil => exact absurd rfl htl
    | cons a b => rfl
  have hgetD : (getPagesList d.bodyElements).getD chunks.length ⟨0, 0, 0⟩ =
      ⟨chunks.length, (sumLen chunks : Int), (d.bodyElements.length : Int) - 1⟩ := by
    rw [hspec]
    simp only [htl', Bool.false_eq_true, if_false]
    have hbl : (chunkPages chunks 0 0 0).length = chunks.length := chunkPages_length _ _ _ _
    rw [← hbl, getD_concat_length]
  have htail_pos : 0 < tail.length := List.length_pos.mpr htl
  have hsum_le : sumLen chunks < d.bodyElements.length := by omega
  rw [removePage_eval d chunks.length hbound, hgetD]
  rw [if_neg (by simp only; omega)]
  simp only
  refine ⟨_, rfl, rfl, rfl, rfl, rfl, ?_⟩
  have hc1 : ((sumLen chunks : Nat) : Int).toNat = sumLen chunks := Int.toNat_natCast _
  have hc2 : ((d.bodyElements.length : Int) - 1 - ((sumLen chunks : Nat) : Int) + 1).toNat =
      d.bodyElements.length - sumLen chunks := by
    have : ((d.bodyElements.length : Int) - 1 - ((sumLen chunks : Nat) : Int) + 1) =
        (((d.bodyElements.length - sumLen chunks : Nat) : Nat) : Int) := by
      push_cast
      omega
    rw [this, Int.toNat_natCast]
  rw [hc1, hc2]
  have htake_eq := (join_take_drop chunks tail chunks.length).1
  rw [List.take_length, hjoin] at htake_eq
  have hnew : spliceList d.bodyElements (sumLen chunks)
      (d.bodyElements.length - sumLen chunks) = chunks.flatten := by
    unfold spliceList
    have hdroplen : sumLen chunks + (d.bodyElements.length - sumLen chunks) =
        d.bodyElements.length := by omega
    rw [hdroplen, List.drop_length, List.append_nil, htake_eq]
  simp only [hnew]
  rw [getPagesList_length, countBreaks_join _ hone, hcnt]

/-- Removing the trailing sentinel page (positive index) drops exactly
the terminal break-bearing element, decreasing the page count by one. -/
theorem removePage_sentinelCase (d : Document)
    (htl : (splitAtBreaks d.bodyElements).2 = [])
    (hch : (splitAtBreaks d.bodyElements).1 ≠ []) :
    ∃ d', d.removePage ((splitAtBreaks d.bodyElements).1.length) = .ok d' ∧
      d'.files = d.files ∧ d'.namespaces = d.namespaces ∧ d'.sectPr = d.sectPr ∧
      d'.dirty = true ∧
      d'.bodyElements = d.bodyElements.dropLast ∧
      (∃ b, d.bodyElements.getLast? = some b ∧ hasPageBreak b = true) ∧
      ((getPagesList d.bodyElements).getD ((splitAtBreaks d.bodyElements).1.length - 1)
          ⟨0, 0, 0⟩).endElement = (d.bodyElements.length : Int) - 1 ∧
      (getPagesList d'.bodyElements).length + 1 = (getPagesList d.bodyElements).length := by
  rcases hsp : splitAtBreaks d.bodyElements with ⟨chunks, tail⟩
  rw [hsp] at htl hch
  simp only at htl hch ⊢
  subst htl
  have hjoin := splitAtBreaks_join d.bodyElements
  have hone := countBreaks_chunk d.bodyElements
  have hK := splitAtBreaks_count d.bodyElements
  have hlen := splitAtBreaks_length d.bodyElements
  rw [hsp] at hjoin hone hK hlen
  simp only at hjoin hone hK hlen
  simp only [List.append_nil] at hjoin
  simp only [List.length_nil, Nat.add_zero] at hlen
  have hcnt : (getPagesList d.bodyElements).length = chunks.length + 1 := by
    rw [getPagesList_length, ← hK]
  have hKpos : 0 < chunks.length := List.length_pos.mpr hch
  have hbody_ne : d.bodyElements ≠ [] := by
    intro hcon
    rw [hcon] at hK
    simp only [countBreaks, List.countP_nil] at hK
    omega
  have hlen_pos : 0 < d.bodyElements.length := List.length_pos.mpr hbody_ne
  have hbound : chunks.length < (getPagesList d.bodyElements).length := by omega
  have hspec := getPagesList_eq_spec d.bodyElements
  simp only [getPagesSpec, hsp] at hspec
  have hch' : chunks.isEmpty = false := by
    cases chunks with
    | nil => exact absurd rfl hch
    | cons a b => rfl
  have hgetD : (getPagesList d.bodyElements).getD chunks.length ⟨0, 0, 0⟩ =
      ⟨chunks.length, -1, -1⟩ := by
    rw [hspec]
    simp only [List.isEmpty_nil, if_true, hch', Bool.false_eq_true, if_false]
    have hbl : (chunkPages chunks 0 0 0).length = chunks.length := chunkPages_length _ _ _ _
    rw [← hbl, getD_concat_length]
  have hprev : (getPagesList d.bodyElements).getD (chunks.length - 1) ⟨0, 0, 0⟩ =
      ⟨chunks.length - 1, (sumLen (chunks.take (chunks.length - 1)) : Int),
       ((sumLen (chunks.take (chunks.length - 1 + 1)) : Nat) : Int) - 1⟩ := by
    have := getPagesList_getD_chunk d.bodyElements (chunks.length - 1)
      (by rw [hsp]; simp only; omega)
    rw [hsp] at this
    simpa using this
  have hsum_full : sumLen (chunks.take (chunks.length - 1 + 1)) = d.bodyElements.length := by
    have : chunks.length - 1 + 1 = chunks.length := by omega
    rw [this, List.take_length, hlen]
  have hprev_end :
      ((getPagesList d.bodyElements).getD (chunks.length - 1) ⟨0, 0, 0⟩).endElement =
        (d.bodyElements.length : Int) - 1 := by
    rw [hprev]
    simp [hsum_full]
  obtain ⟨b, hbsome, hbbreak⟩ : ∃ b, d.bodyElements.getLast? = some b ∧
      hasPageBreak b = true := by
    have hgl : d.bodyElements.getLast? = some (d.bodyElements.getLast hbody_ne) :=
      List.getLast?_eq_getLast _ hbody_ne
    refine ⟨_, hgl, ?_⟩
    have := splitAtBreaks_last d.bodyElements _ hgl
    rw [hsp] at this
    exact this.1 rfl
  rw [removePage_eval d chunks.length hbound, hgetD]
  rw [if_pos rfl]
  rw [if_pos ⟨by exact_mod_cast hKpos, by rw [hprev_end]; omega⟩]
  refine ⟨_, rfl, rfl, rfl, rfl, rfl, ?_, ⟨b, hbsome, hbbreak⟩, hprev_end, ?_⟩
  · rw [hprev_end]
    have hc : ((d.bodyElements.length : Int) - 1).toNat = d.bodyElements.length - 1 := by
      omega
    rw [hc]
    unfold spliceList
    have : d.bodyElements.length - 1 + 1 = d.bodyElements.length := by omega
    rw [this, List.drop_length, List.append_nil, ← List.dropLast_eq_take]
  · rw [hprev_end]
    have hc : ((d.bodyElements.length : Int) - 1).toNat = d.bodyElements.length - 1 := by
      omega
    rw [hc]
    unfold spliceList
    have h1 : d.bodyElements.length - 1 + 1 = d.bodyElements.length := by omega
    rw [h1, List.drop_length, List.append_nil, ← List.dropLast_eq_take]
    have hdecomp : d.bodyElements.dropLast ++ [b] = d.bodyElements := by
      have := List.dropLast_append_getLast hbody_ne
      rwa [← Option.some_inj.mp ((List.getLast?_eq_getLast _ hbody_ne).symm.trans hbsome)]
    have hcb : countBreaks d.bodyElements =
        countBreaks d.bodyElements.dropLast + 1 := by
      conv_lhs => rw [← hdecomp]
      rw [countBreaks_append]
      simp [countBreaks, List.countP_cons, hbbreak]
    dsimp only
    rw [getPagesList_length, getPagesList_length]
    omega

/-- Removing the sole page of an empty document is a no-op on the
body. -/
theorem removePage_emptyCase (d : Document) (h : d.bodyElements = []) :
    d.removePage 0 = .ok { d with dirty := true } := by
  have hpg : getPagesList d.bodyElements = [⟨0, -1, -1⟩] := by
    rw [h]
    rfl
  rw [show (0 : Int) = ((0 : Nat) : Int) from rfl]
  rw [removePage_eval d 0 (by rw [hpg]; simp)]
  rw [hpg]
  simp

/-- Witness for `getPages_partition` at the one-break body. -/
theorem getPages_partition_witness :
    getPagesList [createPageBreakParagraph] =
      [⟨0, 0, 0⟩, ⟨1, -1, -1⟩] ∧
    lastIsSentinel (getPagesList [createPageBreakParagraph]) =
      hasPageBreak createPageBreakParagraph ∧
    isChain 0 (realPages (getPagesList [createPageBreakParagraph])) 1 = true := by
  refine ⟨by decide, ?_⟩
  exact (getPages_partition [createPageBreakParagraph]).2.2 createPageBreakParagraph (by simp)

/-- A two-page document whose second page holds plain content: removing
that final content page leaves the body ending in the page break, so the
page count stays 2 instead of dropping to 1. -/
def docFinalContent : Document :=
  { files := [], bodyElements := [createPageBreakParagraph, createElement "w:p" [] []],
    dirty := true, namespaces := [], sectPr := none }

/-- The state `docFinalContent` reaches after `removePage(1)`. -/
def docFinalContentRemoved : Document :=
  { files := [], bodyElements := [createPageBreakParagraph],
    dirty := true, namespaces := [], sectPr := none }

/-- C3 counterexample: `removePage` at the valid index 1 of a 2-page
document does not decrease the page count. -/
theorem removePage_no_decrease :
    docFinalContent.getPageCount = 2 ∧
    docFinalContent.removePage 1 = .ok docFinalContentRemoved ∧
    docFinalContentRemoved.getPageCount = 2 := by
  refine ⟨rfl, rfl, rfl⟩

/-- C3 (amended): a valid `removePage` always succeeds; it decreases the
page count by exactly one whenever the removed page is not the last
page, or is the trailing `(-1, -1)` sentinel at a positive index; when
the removed page is the last and is a real content page — or the sole
sentinel page of an empty document — the page count is unchanged. -/
theorem removePage_count_amended (d : Document) (i : Nat) (h : i < d.getPageCount) :
    ∃ d', d.removePage i = .ok d' ∧
      ((i + 1 < d.getPageCount ∨ (0 < i ∧ lastIsSentinel d.getPages = true)) →
        d'.getPageCount + 1 = d.getPageCount) ∧
      ((i + 1 = d.getPageCount ∧ (i = 0 ∨ lastIsSentinel d.getPages = false)) →
        d'.getPageCount = d.getPageCount) := by
  have hcnt0 : d.getPageCount = (getPagesList d.bodyElements).length := rfl
  rcases hsp : splitAtBreaks d.bodyElements with ⟨chunks, tail⟩
  have hK := splitAtBreaks_count d.bodyElements
  rw [hsp] at hK
  simp only at hK
  have hcnt : d.getPageCount = chunks.length + 1 := by
    rw [hcnt0, getPagesList_length, ← hK]
  have hspec := getPagesList_eq_spec d.bodyElements
  simp only [getPagesSpec, hsp] at hspec
  by_cases hi : i < chunks.length
  · obtain ⟨d', hok, _, _, _, _, hdec⟩ :=
      removePage_chunkCase d i (by rw [hsp]; exact hi)
    refine ⟨d', hok, fun _ => hdec, fun hcon => ?_⟩
    omega
  · have hiK : i = chunks.length := by omega
    subst hiK
    cases htl : tail with
    | cons t ts =>
      obtain ⟨d', hok, _, _, _, _, hsame⟩ :=
        removePage_tailCase d (by rw [hsp, htl]; simp)
      rw [hsp] at hok
      simp only at hok
      have hsent : lastIsSentinel d.getPages = false := by
        show lastIsSentinel (getPagesList d.bodyElements) = false
        rw [hspec]
        rw [htl]
        simp only [List.isEmpty_cons, Bool.false_eq_true, if_false]
        rw [lastIsSentinel_concat]
        simp only [beq_eq_false_iff_ne]
        omega
      refine ⟨d', hok, fun hcon => ?_, fun _ => hsame⟩
      rcases hcon with hcon | hcon
      · omega
      · rw [hsent] at hcon
        exact absurd hcon.2 (by simp)
    | nil =>
      cases hch : chunks with
      | nil =>
        rw [htl, hch] at hsp
        rw [hch] at hcnt
        simp only [List.length_nil] at hcnt ⊢
        have hbody : d.bodyElements = [] := by
          have hj := splitAtBreaks_join d.bodyElements
          rw [hsp] at hj
          simpa using hj.symm
        have hok := removePage_emptyCase d hbody
        refine ⟨_, hok, fun hcon => ?_, fun _ => ?_⟩
        · exfalso
          rcases hcon with hcon | hcon
          · omega
          · exact absurd hcon.1 (by omega)
        · show ({ d with dirty := true } : Document).getPageCount = d.getPageCount
          rfl
      | cons c cs =>
        rw [htl, hch] at hsp
        rw [htl, hch] at hspec
        rw [hch] at hcnt
        obtain ⟨d', hok, _, _, _, _, _, _, _, hdec⟩ :=
          removePage_sentinelCase d (by rw [hsp]) (by rw [hsp]; simp)
        rw [hsp] at hok
        simp only at hok
        refine ⟨d', hok, fun _ => hdec, fun hcon => ?_⟩
        rcases hcon.2 with hcon2 | hcon2
        · simp at hcon2
        · exfalso
          have hsent : lastIsSentinel d.getPages = true := by
            show lastIsSentinel (getPagesList d.bodyElements) = true
            rw [hspec]
            simp only [List.isEmpty_nil, if_true, List.isEmpty_cons,
              Bool.false_eq_true, if_false]
            rw [lastIsSentinel_concat]
            simp
          rw [hsent] at hcon2
          simp at hcon2

/-- Witness for the amended removal theorem: removing page 0 of the
two-page `docFinalContent` decreases the count to 1. -/
theorem removePage_count_amended_witness :
    0 < docFinalContent.getPageCount ∧
    ∃ d', docFinalContent.removePage 0 = .ok d' ∧
      ((0 + 1 < docFinalContent.getPageCount ∨
          (0 < 0 ∧ lastIsSentinel docFinalContent.getPages = true)) →
        d'.getPageCount + 1 = docFinalContent.getPageCount) ∧
      ((0 + 1 = docFinalContent.getPageCount ∧
          (0 = 0 ∨ lastIsSentinel docFinalContent.getPages = false)) →
        d'.getPageCount = docFinalContent.getPageCount) :=
  ⟨by decide, removePage_count_amended docFinalContent 0 (by decide)⟩

/-- C6: an out-of-bounds index (negative or at least the page count)
produces the bounds error naming the offending index and the current
page count; no document state is returned, so the document is left
unmodified. -/
theorem removePage_bounds_error (d : Document) (index : Int)
    (h : index < 0 ∨ (d.getPageCount : Int) ≤ index) :
    d.removePage index =
      .error ("Page index out of bounds: " ++ toString index ++ ". Document has " ++
        toString d.getPageCount ++ " page(s).") := by
  unfold Document.removePage Document.getPages
  rw [if_pos]
  · rfl
  · exact h

/-- Witness: `removePage(-1)` on a fresh document reports index `-1` and
count 1. -/
theorem removePage_bounds_error_witness :
    ((-1 : Int) < 0 ∨ (Document.create.getPageCount : Int) ≤ -1) ∧
    Document.create.removePage (-1) =
      .error "Page index out of bounds: -1. Document has 1 page(s)." := by
  refine ⟨Or.inl (by decide), ?_⟩
  rw [removePage_bounds_error Document.create (-1) (Or.inl (by decide))]
  rfl

/-- C10: when the last page is the trailing `(-1, -1)` sentinel at a
positive index, removing it drops exactly one body element — the
break-bearing paragraph closing the preceding page — so the page count
decreases by exactly one and every other body element is unchanged. -/
theorem removePage_last_sentinel (d : Document)
    (hsent : lastIsSentinel d.getPages = true) (hcount : 1 < d.getPageCount) :
    ∃ d', d.removePage ((d.getPageCount : Int) - 1) = .ok d' ∧
      d'.bodyElements = d.bodyElements.dropLast ∧
      (∃ b, d.bodyElements.getLast? = some b ∧ hasPageBreak b = true) ∧
      (d.getPages.getD (d.getPageCount - 2) ⟨0, 0, 0⟩).endElement =
        (d.bodyElements.length : Int) - 1 ∧
      d'.getPageCount + 1 = d.getPageCount := by
  have hPg : d.getPages = getPagesList d.bodyElements := rfl
  have hPc : d.getPageCount = (getPagesList d.bodyElements).length := rfl
  rw [hPg] at hsent
  rw [hPc] at hcount ⊢
  rw [hPg]
  rcases hsp : splitAtBreaks d.bodyElements with ⟨chunks, tail⟩
  have hK := splitAtBreaks_count d.bodyElements
  rw [hsp] at hK
  simp only at hK
  have hcnt : (getPagesList d.bodyElements).length = chunks.length + 1 := by
    rw [getPagesList_length, ← hK]
  have hspec := getPagesList_eq_spec d.bodyElements
  simp only [getPagesSpec, hsp] at hspec
  have htl : tail = [] := by
    by_contra htlne
    have htl' : tail.isEmpty = false := by
      cases tail with
      | nil => exact absurd rfl htlne
      | cons a b => rfl
    rw [hspec] at hsent
    rw [htl'] at hsent
    simp only [Bool.false_eq_true, if_false] at hsent
    rw [lastIsSentinel_concat] at hsent
    simp only [beq_iff_eq] at hsent
    omega
  have hch : chunks ≠ [] := by
    intro hcon
    rw [hcnt, hcon] at hcount
    simp at hcount
  obtain ⟨d', hok, _, _, _, _, hdrop, hlastb, hprevend, hdec⟩ :=
    removePage_sentinelCase d (by rw [hsp, htl]) (by rw [hsp]; exact hch)
  have hidx : ((getPagesList d.bodyElements).length : Int) - 1 =
      ((chunks.length : Nat) : Int) := by
    rw [hcnt]
    push_cast
    ring
  rw [hidx]
  have hidx2 : (getPagesList d.bodyElements).length - 2 = chunks.length - 1 := by
    omega
  rw [hidx2]
  rw [hsp] at hprevend hok
  simp only at hprevend hok
  exact ⟨d', hok, hdrop, hlastb, hprevend, hdec⟩

/-- A document of two break paragraphs: three pages, the last the
sentinel. -/
def docTwoBreaks : Document :=
  { files := [], bodyElements := [createPageBreakParagraph, createPageBreakParagraph],
    dirty := true, namespaces := [], sectPr := none }

/-- Witness: removing the sentinel page 2 of `docTwoBreaks` drops the
final break paragraph only. -/
theorem removePage_last_sentinel_witness :
    (lastIsSentinel docTwoBreaks.getPages = true ∧ 1 < docTwoBreaks.getPageCount) ∧
    ∃ d', docTwoBreaks.removePage ((docTwoBreaks.getPageCount : Int) - 1) = .ok d' ∧
      d'.bodyElements = docTwoBreaks.bodyElements.dropLast ∧
      (∃ b, docTwoBreaks.bodyElements.getLast? = some b ∧ hasPageBreak b = true) ∧
      (docTwoBreaks.getPages.getD (docTwoBreaks.getPageCount - 2) ⟨0, 0, 0⟩).endElement =
        (docTwoBreaks.bodyElements.length : Int) - 1 ∧
      d'.getPageCount + 1 = docTwoBreaks.getPageCount :=
  ⟨⟨by decide, by decide⟩, removePage_last_sentinel docTwoBreaks (by decide) (by decide)⟩

/-! ## Merge engine lemmas -/

/-- The element range a page contributes to a merge. -/
def pageSlice (sourceBody : List XmlNode) (page : PageInfo) : List XmlNode :=
  if page.startElement = -1 then []
  else
    (sourceBody.drop page.startElement.toNat).take
      (page.endElement + 1 - page.startElement).toNat

/-- `mergeStep` only appends to the body. -/
theorem mergeStep_body (sourceBody : List XmlNode) (acc : Document) (page : PageInfo) :
    (mergeStep sourceBody acc page).bodyElements =
      acc.bodyElements ++ pageSlice sourceBody page ∧
    (mergeStep sourceBody acc page).files = acc.files ∧
    (mergeStep sourceBody acc page).namespaces = acc.namespaces ∧
    (mergeStep sourceBody acc page).sectPr = acc.sectPr ∧
    (mergeStep sourceBody acc page).dirty = acc.dirty := by
  unfold mergeStep pageSlice
  by_cases h : page.startElement = -1
  · simp [h]
  · simp [h]

/-- The splice loop appends the concatenation of the page slices. -/
theorem foldl_mergeStep (sourceBody : List XmlNode) :
    ∀ (l : List PageInfo) (t : Document),
      (l.foldl (mergeStep sourceBody) t).bodyElements =
        t.bodyElements ++ (l.map (pageSlice sourceBody)).flatten ∧
      (l.foldl (mergeStep sourceBody) t).files = t.files ∧
      (l.foldl (mergeStep sourceBody) t).namespaces = t.namespaces ∧
      (l.foldl (mergeStep sourceBody) t).sectPr = t.sectPr ∧
      (l.foldl (mergeStep sourceBody) t).dirty = t.dirty := by
  intro l
  induction l with
  | nil => intro t; simp
  | cons p rest ih =>
    intro t
    simp only [List.foldl_cons, List.map_cons, List.flatten_cons]
    obtain ⟨hb, hf, hn, hs, hd⟩ := ih (mergeStep sourceBody t p)
    obtain ⟨sb, sf, sn, ss, sd⟩ := mergeStep_body sourceBody t p
    exact ⟨by rw [hb, sb, List.append_assoc], by rw [hf, sf], by rw [hn, sn],
      by rw [hs, ss], by rw [hd, sd]⟩

/-- `copyDocumentStructure` does not touch body, namespaces or the dirty
flag. -/
theorem copyDocumentStructure_fields (d s : Document) :
    (d.copyDocumentStructure s).bodyElements = d.bodyElements ∧
    (d.copyDocumentStructure s).namespaces = d.namespaces ∧
    (d.copyDocumentStructure s).dirty = d.dirty := by
  unfold Document.copyDocumentStructure
  by_cases h : (s.sectPr.isSome && d.sectPr.isNone) = true
  · simp [h]
  · rw [if_neg h]
    exact ⟨rfl, rfl, rfl⟩

/-- The slices of all pages of a body, rebuilt over the chunk pages with
an arbitrary processed prefix, flatten back to the chunk contents. -/
theorem chunkPages_slices (tail : List XmlNode) :
    ∀ (chunks : List (List XmlNode)) (pre : List XmlNode) (pi : Nat),
      ((chunkPages chunks pre.length pre.length pi).map
        (pageSlice (pre ++ (chunks.flatten ++ tail)))).flatten = chunks.flatten := by
  intro chunks
  induction chunks with
  | nil => intro pre pi; simp [chunkPages]
  | cons c rest ih =>
    intro pre pi
    simp only [chunkPages, List.map_cons, List.flatten_cons]
    have hslice : pageSlice (pre ++ (c ++ rest.flatten ++ tail))
        ⟨pi, (pre.length : Int), ((pre.length + c.length : Nat) : Int) - 1⟩ = c := by
      unfold pageSlice
      rw [if_neg (by simp only; omega)]
      simp only
      have h1 : ((pre.length : Int)).toNat = pre.length := Int.toNat_natCast _
      have h2 : (((pre.length + c.length : Nat) : Int) - 1 + 1 - (pre.length : Int)).toNat =
          c.length := by
        have : (((pre.length + c.length : Nat) : Int) - 1 + 1 - (pre.length : Int)) =
            ((c.length : Nat) : Int) := by push_cast; ring
        rw [this, Int.toNat_natCast]
      rw [h1, h2]
      rw [List.drop_left]
      rw [List.append_assoc, List.take_left' rfl]
    rw [hslice]
    have hrw : pre ++ (c ++ rest.flatten ++ tail) = (pre ++ c) ++ (rest.flatten ++ tail) := by
      simp [List.append_assoc]
    have hlen : pre.length + c.length = (pre ++ c).length := by simp
    rw [hrw, hlen]
    exact congrArg (fun x => c ++ x) (ih (pre ++ c) (pi + 1))

/-- The slices of all pages of a body flatten back to the body itself:
merging every page contributes exactly the source body. -/
theorem pages_slices_all (body : List XmlNode) :
    ((getPagesList body).map (pageSlice body)).flatten = body := by
  rw [getPagesList_eq_spec]
  rcases hsp : splitAtBreaks body with ⟨chunks, tail⟩
  have hjoin := splitAtBreaks_join body
  have hlen := splitAtBreaks_length body
  rw [hsp] at hjoin hlen
  simp only at hjoin hlen
  have hbase := chunkPages_slices tail chunks [] 0
  simp only [List.length_nil, List.nil_append] at hbase
  rw [hjoin] at hbase
  simp only [getPagesSpec, hsp]
  cases htl : tail.isEmpty with
  | true =>
    have htail : tail = [] := List.isEmpty_iff.mp htl
    cases hch : chunks.isEmpty with
    | true =>
      have hchunks : chunks = [] := List.isEmpty_iff.mp hch
      simp only [if_true]
      subst htail hchunks
      simp only [List.flatten_nil, List.nil_append] at hjoin
      simp [pageSlice, hjoin]
    | false =>
      simp only [if_true, hch, Bool.false_eq_true, if_false]
      rw [List.map_append, List.flatten_append, hbase]
      simp only [List.map_cons, List.map_nil]
      have hsent : pageSlice body ⟨chunks.length, -1, -1⟩ = [] := by
        simp [pageSlice]
      rw [hsent]
      subst htail
      simp only [List.append_nil] at hjoin ⊢
      simp [hjoin]
  | false =>
    simp only [Bool.false_eq_true, if_false]
    rw [List.map_append, List.flatten_append, hbase]
    simp only [List.map_cons, List.map_nil]
    have hfinal : pageSlice body
        ⟨chunks.length, (sumLen chunks : Int), (body.length : Int) - 1⟩ = tail := by
      unfold pageSlice
      rw [if_neg (by simp only; omega)]
      simp only
      have htail_len : body.length = sumLen chunks + tail.length := hlen
      have h1 : ((sumLen chunks : Nat) : Int).toNat = sumLen chunks := Int.toNat_natCast _
      have h2 : ((body.length : Int) - 1 + 1 - ((sumLen chunks : Nat) : Int)).toNat =
          tail.length := by
        have : ((body.length : Int) - 1 + 1 - ((sumLen chunks : Nat) : Int)) =
            ((tail.length : Nat) : Int) := by push_cast; omega
        rw [this, Int.toNat_natCast]
      rw [h1, h2]
      have hdrop := (join_take_drop chunks tail chunks.length).2
      rw [List.take_length, List.drop_length] at hdrop
      simp only [List.flatten_nil, List.nil_append] at hdrop
      rw [hjoin] at hdrop
      rw [hdrop]
      exact List.take_length tail
    rw [hfinal]
    simp [hjoin]

/-- `merge` with the whole-source selection: the target body grows by an
optional leading break followed by the entire source body, and the
result is dirty. -/
theorem merge_all_body (t s : Document) (apb : Option Bool) :
    (t.merge s { pages := none, addPageBreakBefore := apb }).bodyElements =
      t.bodyElements ++
        (if apb ≠ some false ∧ t.bodyElements.isEmpty = false then [createPageBreakParagraph]
         else []) ++ s.bodyElements ∧
    (t.merge s { pages := none, addPageBreakBefore := apb }).dirty = true := by
  unfold Document.merge Document.getPages
  simp only
  have hne : (getPagesList s.bodyElements).isEmpty = false := by
    have := getPagesList_length s.bodyElements
    cases hpg : getPagesList s.bodyElements with
    | nil => rw [hpg] at this; simp at this
    | cons a b => rfl
  rw [hne]
  simp only [Bool.false_eq_true, if_false]
  by_cases hfm : (t.bodyElements.isEmpty && t.files.isEmpty) = true
  · rw [if_pos hfm]
    obtain ⟨hcb, hcn, hcd⟩ := copyDocumentStructure_fields
      { t with dirty := true, namespaces := mergeNamespaces t.namespaces s.namespaces } s
    have htb : t.bodyElements = [] :=
      List.isEmpty_iff.mp (Bool.and_elim_left hfm)
    rw [if_neg (by rw [hcb]; simp [htb])]
    obtain ⟨hb, _, _, _, hd⟩ := foldl_mergeStep s.bodyElements (getPagesList s.bodyElements)
      (Document.copyDocumentStructure
        { t with dirty := true, namespaces := mergeNamespaces t.namespaces s.namespaces } s)
    rw [hb, hd, hcb, hcd, pages_slices_all]
    rw [htb]
    simp
  · rw [if_neg hfm]
    by_cases hbrk : (apb ≠ some false ∧
        0 < ({ t with
          dirty := true,
          namespaces := mergeNamespaces t.namespaces s.namespaces } : Document).bodyElements.length)
    · rw [if_pos hbrk]
      obtain ⟨hb, _, _, _, hd⟩ := foldl_mergeStep s.bodyElements (getPagesList s.bodyElements)
        { t with
          dirty := true,
          namespaces := mergeNamespaces t.namespaces s.namespaces,
          bodyElements := t.bodyElements ++ [createPageBreakParagraph] }
      rw [hb, hd, pages_slices_all]
      have hcond : apb ≠ some false ∧ t.bodyElements.isEmpty = false := by
        refine ⟨hbrk.1, ?_⟩
        have h2 := hbrk.2
        simp only at h2
        cases hb2 : t.bodyElements with
        | nil => rw [hb2] at h2; simp at h2
        | cons a b => rfl
      rw [if_pos hcond]
      simp [List.append_assoc]
    · rw [if_neg hbrk]
      obtain ⟨hb, _, _, _, hd⟩ := foldl_mergeStep s.bodyElements (getPagesList s.bodyElements)
        { t with dirty := true, namespaces := mergeNamespaces t.namespaces s.namespaces }
      rw [hb, hd, pages_slices_all]
      have hcond : ¬(apb ≠ some false ∧ t.bodyElements.isEmpty = false) := by
        intro hcon
        refine hbrk ⟨hcon.1, ?_⟩
        simp only
        have := hcon.2
        cases hb2 : t.bodyElements with
        | nil => rw [hb2] at this; simp at this
        | cons a b => simp [hb2]
      rw [if_neg hcond]
      simp

/-- A plain content paragraph with no break. -/
def contentParagraph : XmlNode :=
  createElement "w:p" [] []

/-- A one-page target with body content and no breaks. -/
def docMergeTarget : Document :=
  { files := [], bodyElements := [contentParagraph], dirty := true, namespaces := [],
    sectPr := none }

/-- A three-page source: two page breaks interleaved with content. -/
def docMergeSource : Document :=
  { files := [],
    bodyElements := [contentParagraph, createPageBreakParagraph, contentParagraph,
      createPageBreakParagraph, contentParagraph],
    dirty := true, namespaces := [], sectPr := none }

/-- C4 counterexample: merging the 3-page source into the 1-page target
with default options yields 4 pages, not 5. -/
theorem merge_count_counterexample :
    docMergeTarget.getPageCount = 1 ∧ docMergeSource.getPageCount = 3 ∧
    countBreaks docMergeSource.bodyElements = 2 ∧
    (docMergeTarget.merge docMergeSource MergeOptions.default).getPageCount = 4 := by
  refine ⟨by decide, by decide, by decide, by decide⟩

/-- C4 (amended): merging a source with exactly two page breaks (a
3-page document) into a target with nonempty break-free body content (a
1-page document), with default options, yields exactly 4 pages: the
inserted break plus the two source breaks give three breaks, hence four
pages. -/
theorem merge_three_page_count (t s : Document)
    (ht : t.bodyElements.isEmpty = false)
    (htb : countBreaks t.bodyElements = 0)
    (hsb : countBreaks s.bodyElements = 2) :
    (t.merge s MergeOptions.default).getPageCount = 4 := by
  obtain ⟨hbody, _⟩ := merge_all_body t s none
  show (getPagesList (t.merge s MergeOptions.default).bodyElements).length = 4
  have hdef : MergeOptions.default =
      { pages := none, addPageBreakBefore := none } := rfl
  rw [hdef, hbody]
  rw [if_pos ⟨by simp, ht⟩]
  rw [getPagesList_length, countBreaks_append, countBreaks_append, htb, hsb]
  have hbr : countBreaks [createPageBreakParagraph] = 1 := by decide
  rw [hbr]

/-- Witness for the amended merge-count theorem at the concrete
documents. -/
theorem merge_three_page_count_witness :
    (docMergeTarget.bodyElements.isEmpty = false ∧
      countBreaks docMergeTarget.bodyElements = 0 ∧
      countBreaks docMergeSource.bodyElements = 2) ∧
    (docMergeTarget.merge docMergeSource MergeOptions.default).getPageCount = 4 :=
  ⟨⟨by decide, by decide, by decide⟩,
    merge_three_page_count docMergeTarget docMergeSource (by decide) (by decide) (by decide)⟩

/-- With an empty resolved page selection, `merge` returns right after
the structural phase: dirty flag, namespace union, and (for a pristine
target) the one-time structural copy. -/
theorem merge_empty_selection (t s : Document) (ps : List Int) (apb : Option Bool)
    (h : ∀ i ∈ ps, i < 0 ∨ ((getPagesList s.bodyElements).length : Int) ≤ i) :
    t.merge s { pages := some ps, addPageBreakBefore := apb } =
      (if (t.bodyElements.isEmpty && t.files.isEmpty) = true then
        Document.copyDocumentStructure
          { t with dirty := true, namespaces := mergeNamespaces t.namespaces s.namespaces } s
      else
        { t with dirty := true, namespaces := mergeNamespaces t.namespaces s.namespaces }) := by
  unfold Document.merge Document.getPages
  simp only
  have hfilter : (ps.filter (fun idx : Int =>
      decide (0 ≤ idx ∧ idx < ((getPagesList s.bodyElements).length : Int)))) = [] := by
    rw [List.filter_eq_nil]
    intro a ha
    simp only [decide_eq_true_eq, not_and, not_lt]
    intro h0
    rcases h a ha with hlt | hge
    · omega
    · omega
  rw [hfilter]
  simp

/-- C7: merging with `pages: []` or an entirely out-of-range page list
leaves the target's body elements and page count unchanged, and raises
no error (the operation is total and returns normally). -/
theorem merge_noop_body (t s : Document) (ps : List Int) (apb : Option Bool)
    (h : ∀ i ∈ ps, i < 0 ∨ (s.getPageCount : Int) ≤ i) :
    (t.merge s { pages := some ps, addPageBreakBefore := apb }).bodyElements =
      t.bodyElements ∧
    (t.merge s { pages := some ps, addPageBreakBefore := apb }).getPageCount =
      t.getPageCount := by
  have hcore := merge_empty_selection t s ps apb h
  rw [hcore]
  by_cases hfm : (t.bodyElements.isEmpty && t.files.isEmpty) = true
  · rw [if_pos hfm]
    obtain ⟨hb, _, _⟩ := copyDocumentStructure_fields
      { t with dirty := true, namespaces := mergeNamespaces t.namespaces s.namespaces } s
    refine ⟨hb, ?_⟩
    show (getPagesList _).length = (getPagesList _).length
    rw [hb]
  · rw [if_neg hfm]
    exact ⟨rfl, rfl⟩

/-- Witness: merging with an out-of-range selection into a one-break
target keeps its two pages. -/
theorem merge_noop_body_witness :
    (∀ i ∈ ([5, -3] : List Int), i < 0 ∨ (docMergeSource.getPageCount : Int) ≤ i) ∧
    ((docFinalContent.merge docMergeSource
        { pages := some [5, -3], addPageBreakBefore := none }).bodyElements =
      docFinalContent.bodyElements ∧
    (docFinalContent.merge docMergeSource
        { pages := some [5, -3], addPageBreakBefore := none }).getPageCount =
      docFinalContent.getPageCount) :=
  ⟨by decide, merge_noop_body docFinalContent docMergeSource [5, -3] none (by decide)⟩

/-- Association-list lookup distributes over append. -/
theorem fileLookup_append (a b : List (String × String)) (q : String) :
    fileLookup (a ++ b) q = (fileLookup a q).orElse (fun _ => fileLookup b q) := by
  induction a with
  | nil => simp [fileLookup, Option.orElse]
  | cons pc rest ih =>
    by_cases hq : (pc.1 == q) = true
    · simp [fileLookup, List.find?, hq, Option.orElse]
    · simp only [fileLookup, List.cons_append, List.find?, hq] at ih ⊢
      exact ih

/-- Key membership test agrees with lookup success. -/
theorem any_key_eq_lookup_isSome (l : List (String × String)) (k : String) :
    l.any (fun r => r.1 == k) = (fileLookup l k).isSome := by
  induction l with
  | nil => rfl
  | cons pc rest ih =>
    by_cases h : (pc.1 == k) = true
    · simp [fileLookup, List.find?, h]
    · simp only [List.any_cons, h, Bool.false_or, fileLookup, List.find?] at ih ⊢
      exact ih

/-- Lookup after the structural part-copy fold: entries already present
win, the primary document part is never copied, and otherwise the first
matching source entry is found. -/
theorem copyFold_lookup (l : List (String × String)) :
    ∀ (acc : List (String × String)) (q : String),
      fileLookup (l.foldl (fun fs pc =>
          if pc.1 == "word/document.xml" then fs
          else if fs.any (fun r => r.1 == pc.1) then fs
          else fs ++ [pc]) acc) q =
        (fileLookup acc q).orElse (fun _ =>
          if q == "word/document.xml" then none else fileLookup l q) := by
  induction l with
  | nil =>
    intro acc q
    simp only [List.foldl_nil]
    cases hx : fileLookup acc q <;> cases hqd : (q == "word/document.xml") <;>
      simp [Option.orElse, hx, hqd, fileLookup]
  | cons pc rest ih =>
    intro acc q
    simp only [List.foldl_cons]
    by_cases hdoc : (pc.1 == "word/document.xml") = true
    · rw [if_pos hdoc, ih acc q]
      by_cases hq : (q == "word/document.xml") = true
      · simp only [hq, if_true]
      · simp only [hq, Bool.false_eq_true, if_false]
        have hne : (pc.1 == q) = false := by
          have h1 := eq_of_beq hdoc
          cases hb : pc.1 == q with
          | false => rfl
          | true =>
            have h2 := eq_of_beq hb
            rw [h1] at h2
            rw [← h2] at hq
            simp at hq
        simp only [fileLookup, List.find?, hne]
    · rw [if_neg (by simp [hdoc])]
      by_cases hany : (acc.any (fun r => r.1 == pc.1)) = true
      · rw [if_pos hany, ih acc q]
        by_cases hpq : (pc.1 == q) = true
        · have hkey : fileLookup acc q ≠ none := by
            rw [any_key_eq_lookup_isSome] at hany
            have heq : pc.1 = q := eq_of_beq hpq
            rw [heq] at hany
            intro hcon
            rw [hcon] at hany
            simp at hany
          cases hx : fileLookup acc q with
          | none => exact absurd hx hkey
          | some v => simp [Option.orElse, hx]
        · have hpq' : (pc.1 == q) = false := by
            cases hb : pc.1 == q with
            | false => rfl
            | true => exact absurd hb hpq
          have hcons : fileLookup (pc :: rest) q = fileLookup rest q := by
            simp only [fileLookup, List.find?, hpq']
          rw [hcons]
      · rw [if_neg (by simp [hany]), ih (acc ++ [pc]) q, fileLookup_append]
        cases hx : fileLookup acc q with
        | some v => simp [Option.orElse, hx]
        | none =>
          by_cases hpq : (pc.1 == q) = true
          · have heq : pc.1 = q := eq_of_beq hpq
            have hqd : (q == "word/document.xml") = false := by
              rw [← heq]
              cases hb : pc.1 == "word/document.xml" with
              | false => rfl
              | true => exact absurd hb hdoc
            have hsingle : fileLookup [pc] q = some pc.2 := by
              simp [fileLookup, List.find?, hpq]
            have hcons : fileLookup (pc :: rest) q = some pc.2 := by
              simp [fileLookup, List.find?, hpq]
            simp [Option.orElse, hx, hsingle, hcons, hqd]
          · have hpq' : (pc.1 == q) = false := by
              cases hb : pc.1 == q with
              | false => rfl
              | true => exact absurd hb hpq
            have hsingle : fileLookup [pc] q = none := by
              simp [fileLookup, List.find?, hpq']
            have hcons : fileLookup (pc :: rest) q = fileLookup rest q := by
              simp only [fileLookup, List.find?, hpq']
            rw [hcons]
            simp [Option.orElse, hx, hsingle]

/-- A pristine target: empty body, empty part store. -/
def docPristine : Document :=
  { files := [], bodyElements := [], dirty := false, namespaces := [], sectPr := none }

/-- A source carrying namespaces, parts and section properties. -/
def docNsSource : Document :=
  { files := [("word/styles.xml", "styles"), ("word/document.xml", "doc")],
    bodyElements := [contentParagraph], dirty := false,
    namespaces := [("xmlns:w", "nsW"), ("xmlns:r", "nsR")],
    sectPr := some (createElement "w:sectPr" [] []) }

/-- C9: a merge whose effective page selection is empty is not fully
effect-free outside the body: it sets the dirty flag, unions the
source's namespace declarations into the target, and — when the target
is pristine (empty body and empty part store) — adopts the source's
section properties and copies every source part except the primary
document part before returning. -/
theorem merge_empty_selection_effects (t s : Document) (ps : List Int) (apb : Option Bool)
    (h : ∀ i ∈ ps, i < 0 ∨ (s.getPageCount : Int) ≤ i) :
    (t.merge s { pages := some ps, addPageBreakBefore := apb }).dirty = true ∧
    (t.merge s { pages := some ps, addPageBreakBefore := apb }).namespaces =
      mergeNamespaces t.namespaces s.namespaces ∧
    (t.merge s { pages := some ps, addPageBreakBefore := apb }).bodyElements =
      t.bodyElements ∧
    (t.bodyElements = [] → t.files = [] →
      ((t.merge s { pages := some ps, addPageBreakBefore := apb }).sectPr =
        if t.sectPr.isNone then s.sectPr else t.sectPr) ∧
      fileLookup (t.merge s { pages := some ps, addPageBreakBefore := apb }).files
        "word/document.xml" = none ∧
      (∀ p, p ≠ "word/document.xml" →
        fileLookup (t.merge s { pages := some ps, addPageBreakBefore := apb }).files p =
          fileLookup s.files p)) := by
  have hcore := merge_empty_selection t s ps apb h
  rw [hcore]
  by_cases hfm : (t.bodyElements.isEmpty && t.files.isEmpty) = true
  · rw [if_pos hfm]
    obtain ⟨hb, hn, hd⟩ := copyDocumentStructure_fields
      { t with dirty := true, namespaces := mergeNamespaces t.namespaces s.namespaces } s
    refine ⟨hd, hn, hb, ?_⟩
    intro _ hfiles
    have hcopy : Document.copyDocumentStructure
        { t with dirty := true, namespaces := mergeNamespaces t.namespaces s.namespaces } s =
        { t with
          dirty := true,
          namespaces := mergeNamespaces t.namespaces s.namespaces,
          sectPr := if (s.sectPr.isSome && t.sectPr.isNone) = true then s.sectPr else t.sectPr,
          files := s.files.foldl (fun fs pc =>
            if pc.1 == "word/document.xml" then fs
            else if fs.any (fun r => r.1 == pc.1) then fs
            else fs ++ [pc]) t.files } := by
      unfold Document.copyDocumentStructure
      by_cases hsec : (s.sectPr.isSome &&
          ({ t with
            dirty := true,
            namespaces := mergeNamespaces t.namespaces s.namespaces } : Document).sectPr.isNone) = true
      · rw [if_pos hsec]
        simp only at hsec ⊢
        rw [if_pos hsec]
      · rw [if_neg hsec]
        simp only at hsec ⊢
        rw [if_neg hsec]
    rw [hcopy]
    simp only
    refine ⟨?_, ?_, ?_⟩
    · cases hts : t.sectPr with
      | none =>
        cases hss : s.sectPr with
        | none => simp [hts, hss]
        | some sp => simp [hts, hss]
      | some tp => simp [hts]
    · rw [hfiles, copyFold_lookup s.files [] "word/document.xml"]
      simp [fileLookup, Option.orElse]
    · intro p hp
      rw [hfiles, copyFold_lookup s.files [] p]
      have hpd : (p == "word/document.xml") = false := by
        cases hb : p == "word/document.xml" with
        | false => rfl
        | true => exact absurd (eq_of_beq hb) hp
      simp [fileLookup, Option.orElse, hpd]
  · rw [if_neg hfm]
    refine ⟨rfl, rfl, rfl, ?_⟩
    intro hbody hfiles
    exfalso
    exact hfm (by simp [hbody, hfiles])

/-- Witness for the empty-selection side-effect theorem on a pristine
target. -/
theorem merge_empty_selection_effects_witness :
    (∀ i ∈ ([] : List Int), i < 0 ∨ (docNsSource.getPageCount : Int) ≤ i) ∧
    ((docPristine.merge docNsSource
        { pages := some [], addPageBreakBefore := none }).dirty = true ∧
      (docPristine.merge docNsSource
        { pages := some [], addPageBreakBefore := none }).namespaces =
        mergeNamespaces docPristine.namespaces docNsSource.namespaces ∧
      (docPristine.merge docNsSource
        { pages := some [], addPageBreakBefore := none }).bodyElements =
        docPristine.bodyElements ∧
      (docPristine.bodyElements = [] → docPristine.files = [] →
        ((docPristine.merge docNsSource
            { pages := some [], addPageBreakBefore := none }).sectPr =
          if docPristine.sectPr.isNone then docNsSource.sectPr else docPristine.sectPr) ∧
        fileLookup (docPristine.merge docNsSource
            { pages := some [], addPageBreakBefore := none }).files "word/document.xml" =
          none ∧
        (∀ p, p ≠ "word/document.xml" →
          fileLookup (docPristine.merge docNsSource
              { pages := some [], addPageBreakBefore := none }).files p =
            fileLookup docNsSource.files p))) :=
  ⟨by simp,
    merge_empty_selection_effects docPristine docNsSource [] none (by simp)⟩

/-- Namespace-union lookup: the value already present in the target
wins, otherwise the source's first binding is taken. -/
theorem mergeNamespaces_lookup (src : List (String × String)) :
    ∀ (tgt : List (String × String)) (k : String),
      fileLookup (mergeNamespaces tgt src) k =
        (fileLookup tgt k).orElse (fun _ => fileLookup src k) := by
  induction src with
  | nil =>
    intro tgt k
    simp only [mergeNamespaces, List.foldl_nil]
    cases hx : fileLookup tgt k with
    | none => simp [Option.orElse, fileLookup]
    | some v => simp [Option.orElse]
  | cons kv rest ih =>
    intro tgt k
    simp only [mergeNamespaces, List.foldl_cons] at ih ⊢
    by_cases hany : (tgt.any (fun p => p.1 == kv.1)) = true
    · rw [if_pos hany, ih tgt k]
      by_cases hpk : (kv.1 == k) = true
      · have hkey : fileLookup tgt k ≠ none := by
          rw [any_key_eq_lookup_isSome] at hany
          rw [eq_of_beq hpk] at hany
          intro hcon
          rw [hcon] at hany
          simp at hany
        cases hx : fileLookup tgt k with
        | none => exact absurd hx hkey
        | some v => simp [Option.orElse, hx]
      · have hpk' : (kv.1 == k) = false := by
          cases hb : kv.1 == k with
          | false => rfl
          | true => exact absurd hb hpk
        have hcons : fileLookup (kv :: rest) k = fileLookup rest k := by
          simp only [fileLookup, List.find?, hpk']
        rw [hcons]
    · rw [if_neg hany, ih (tgt ++ [kv]) k, fileLookup_append]
      cases hx : fileLookup tgt k with
      | some v => simp [Option.orElse, hx]
      | none =>
        by_cases hpk : (kv.1 == k) = true
        · have hsingle : fileLookup [kv] k = some kv.2 := by
            simp [fileLookup, List.find?, hpk]
          have hcons : fileLookup (kv :: rest) k = some kv.2 := by
            simp [fileLookup, List.find?, hpk]
          simp [Option.orElse, hx, hsingle, hcons]
        · have hpk' : (kv.1 == k) = false := by
            cases hb : kv.1 == k with
            | false => rfl
            | true => exact absurd hb hpk
          have hsingle : fileLookup [kv] k = none := by
            simp [fileLookup, List.find?, hpk']
          have hcons : fileLookup (kv :: rest) k = fileLookup rest k := by
            simp only [fileLookup, List.find?, hpk']
          rw [hcons]
          simp [Option.orElse, hx, hsingle]

/-- The namespace union keeps keys unique. -/
theorem mergeNamespaces_nodup (src : List (String × String)) :
    ∀ tgt : List (String × String), (tgt.map Prod.fst).Nodup →
      ((mergeNamespaces tgt src).map Prod.fst).Nodup := by
  induction src with
  | nil => intro tgt h; exact h
  | cons kv rest ih =>
    intro tgt h
    simp only [mergeNamespaces, List.foldl_cons] at ih ⊢
    by_cases hany : (tgt.any (fun p => p.1 == kv.1)) = true
    · rw [if_pos hany]
      exact ih tgt h
    · rw [if_neg hany]
      apply ih
      rw [List.map_append]
      refine List.Nodup.append h (List.nodup_singleton _) ?_
      intro a ha hb
      simp only [List.map_cons, List.map_nil, List.mem_singleton] at hb
      subst hb
      apply hany
      rw [List.any_eq_true]
      obtain ⟨p, hp, hpa⟩ := List.mem_map.mp ha
      exact ⟨p, hp, beq_iff_eq.mpr hpa⟩

/-- Every branch of `merge` carries the namespace union and the dirty
flag through. -/
theorem merge_fields (t s : Document) (opts : MergeOptions) :
    (t.merge s opts).namespaces = mergeNamespaces t.namespaces s.namespaces ∧
    (t.merge s opts).dirty = true := by
  unfold Document.merge Document.getPages
  simp only
  obtain ⟨hcb, hcn, hcd⟩ := copyDocumentStructure_fields
    { t with dirty := true, namespaces := mergeNamespaces t.namespaces s.namespaces } s
  constructor
  · split
    · split
      · exact hcn
      · rfl
    · obtain ⟨_, _, hn, _, _⟩ := foldl_mergeStep s.bodyElements _ _
      rw [hn]
      repeat' split
      all_goals first | exact hcn | rfl
  · split
    · split
      · exact hcd
      · rfl
    · obtain ⟨_, _, _, _, hd⟩ := foldl_mergeStep s.bodyElements _ _
      rw [hd]
      repeat' split
      all_goals first | exact hcd | rfl

/-- First defined value in a list of optional bindings. -/
def firstSome : List (Option String) → Option String
  | [] => none
  | o :: os => o.orElse (fun _ => firstSome os)

/-- C8: across any sequence of merges into one target, each namespace
key resolves to the first writer's value — the target's own binding when
present, else the binding of the first source in merge order that
carries the key — and the key set stays duplicate-free. -/
theorem merge_namespaces_union (t : Document) (srcs : List Document) (opts : MergeOptions)
    (k : String) :
    fileLookup ((srcs.foldl (fun acc s => acc.merge s opts) t).namespaces) k =
      (fileLookup t.namespaces k).orElse (fun _ =>
        firstSome (srcs.map (fun s => fileLookup s.namespaces k))) ∧
    ((t.namespaces.map Prod.fst).Nodup →
      (((srcs.foldl (fun acc s => acc.merge s opts) t).namespaces).map Prod.fst).Nodup) := by
  induction srcs generalizing t with
  | nil =>
    constructor
    · cases hx : fileLookup t.namespaces k <;> simp [firstSome, Option.orElse, hx]
    · intro h
      exact h
  | cons s rest ih =>
    simp only [List.foldl_cons, List.map_cons, firstSome]
    have hfield := (merge_fields t s opts).1
    obtain ⟨ihl, ihn⟩ := ih (t.merge s opts)
    constructor
    · rw [ihl, hfield, mergeNamespaces_lookup]
      cases hx : fileLookup t.namespaces k <;>
        cases hy : fileLookup s.namespaces k <;>
          simp [Option.orElse, hx, hy]
    · intro h
      apply ihn
      rw [hfield]
      exact mergeNamespaces_nodup _ _ h

/-- A target with a pre-existing namespace binding. -/
def docNsTarget : Document :=
  { files := [("word/document.xml", "body")], bodyElements := [contentParagraph],
    dirty := false, namespaces := [("xmlns:w", "targetW")], sectPr := none }

/-- Witness for the namespace-union theorem: the target's binding for
`xmlns:w` survives a merge with a source that also binds it. -/
theorem merge_namespaces_union_witness :
    (fileLookup ((([docNsSource] : List Document).foldl
        (fun acc s => acc.merge s MergeOptions.default) docNsTarget).namespaces) "xmlns:w" =
      (fileLookup docNsTarget.namespaces "xmlns:w").orElse (fun _ =>
        firstSome (([docNsSource] : List Document).map
          (fun s => fileLookup s.namespaces "xmlns:w")))) ∧
    ((docNsTarget.namespaces.map Prod.fst).Nodup ∧
      ((([docNsSource] : List Document).foldl
          (fun acc s => acc.merge s MergeOptions.default)
          docNsTarget).namespaces.map Prod.fst).Nodup) := by
  obtain ⟨h1, h2⟩ :=
    merge_namespaces_union docNsTarget [docNsSource] MergeOptions.default "xmlns:w"
  exact ⟨h1, by decide, h2 (by decide)⟩

/-! ## Serialization lemmas -/

/-- A document loaded (after the external unzip) from an archive holding
only a styles part: clean, non-empty part store, no primary document
part. -/
def docLoadedBare : Document :=
  Document.fromFiles (fun _ => []) [("word/styles.xml", "styles")]

/-- C5 counterexample: serializing the untouched loaded document emits
only the carried part — none of the four structural parts is present in
the produced package. -/
theorem toBuffer_missing_parts :
    docLoadedBare.dirty = false ∧
    docLoadedBare.toBufferFiles = [("word/styles.xml", "styles")] ∧
    fileHas docLoadedBare.toBufferFiles "[Content_Types].xml" = false ∧
    fileHas docLoadedBare.toBufferFiles "word/document.xml" = false ∧
    fileHas docLoadedBare.toBufferFiles "_rels/.rels" = false ∧
    fileHas docLoadedBare.toBufferFiles "word/_rels/document.xml.rels" = false := by
  refine ⟨by decide, by decide, by decide, by decide, by decide, by decide⟩

/-- Replacing the value stored under a key does not change key
membership. -/
theorem fileHas_replace (files : List (String × String)) (p c q : String) :
    fileHas (files.map (fun pc => if pc.1 == p then (p, c) else pc)) q =
      fileHas files q := by
  induction files with
  | nil => rfl
  | cons pc rest ih =>
    by_cases hk : (pc.1 == p) = true
    · simp only [List.map_cons, if_pos hk, fileHas, List.any_cons] at ih ⊢
      rw [ih]
      have heq : pc.1 = p := eq_of_beq hk
      rw [heq]
    · simp only [List.map_cons, if_neg hk, fileHas, List.any_cons] at ih ⊢
      rw [ih]

/-- Key membership after `Map.set`. -/
theorem fileHas_fileSet (files : List (String × String)) (p c q : String) :
    fileHas (fileSet files p c) q = (fileHas files q || (p == q)) := by
  unfold fileSet
  by_cases h : fileHas files p = true
  · rw [if_pos h, fileHas_replace]
    by_cases hq : (p == q) = true
    · have heq : p = q := eq_of_beq hq
      subst heq
      rw [h]
      simp
    · have hq' : (p == q) = false := by
        cases hb : p == q with
        | false => rfl
        | true => exact absurd hb hq
      rw [hq']
      simp
  · rw [if_neg h]
    unfold fileHas at *
    rw [List.any_append]
    simp [List.any_cons]

/-- `Map.set` with a well-formed entry preserves the part-store
invariant (nonempty contents, non-directory paths). -/
theorem wf_fileSet (files : List (String × String)) (p c : String)
    (hwf : ∀ pc ∈ files, pc.2 ≠ "" ∧ endsWithSlash pc.1 = false)
    (hc : c ≠ "") (hp : endsWithSlash p = false) :
    ∀ pc ∈ fileSet files p c, pc.2 ≠ "" ∧ endsWithSlash pc.1 = false := by
  unfold fileSet
  by_cases h : fileHas files p = true
  · rw [if_pos h]
    intro pc hpc
    obtain ⟨orig, horig, hmap⟩ := List.mem_map.mp hpc
    by_cases hk : (orig.1 == p) = true
    · rw [if_pos hk] at hmap
      rw [← hmap]
      exact ⟨hc, hp⟩
    · rw [if_neg hk] at hmap
      rw [← hmap]
      exact hwf orig horig
  · rw [if_neg h]
    intro pc hpc
    rcases List.mem_append.mp hpc with hm | hm
    · exact hwf pc hm
    · simp only [List.mem_singleton] at hm
      rw [hm]
      exact ⟨hc, hp⟩

/-- The ZIP writer's exclusion rule drops nothing from a well-formed
part store. -/
theorem fileHas_zipFilter (files : List (String × String)) (p : String)
    (hwf : ∀ pc ∈ files, pc.2 ≠ "" ∧ endsWithSlash pc.1 = false) :
    fileHas (zipFilter files) p = fileHas files p := by
  induction files with
  | nil => rfl
  | cons pc rest ih =>
    have hpc := hwf pc (List.mem_cons_self _ _)
    have hempty : (pc.2 == "") = false := by
      cases hb : pc.2 == "" with
      | false => rfl
      | true => exact absurd (eq_of_beq hb) hpc.1
    have hkeep : (!(endsWithSlash pc.1) && !(pc.2 == "")) = true := by
      rw [hpc.2, hempty]
      rfl
    unfold zipFilter fileHas at ih ⊢
    simp only [List.filter_cons, hkeep, if_true, List.any_cons]
    rw [ih (fun q hq => hwf q (List.mem_cons_of_mem _ hq))]

/-- A string with a nonempty prefix is nonempty. -/
theorem append_ne_empty_left (a b : String) (ha : a ≠ "") : a ++ b ≠ "" := by
  intro h
  apply ha
  have hd : (a ++ b).data = a.data ++ b.data := String.data_append a b
  rw [h] at hd
  have : a.data = [] := by
    have := hd.symm
    exact List.append_eq_nil.mp (by simpa using this) |>.1
  cases a with
  | mk d =>
    simp only at this
    rw [this]

/-- One lazy-creation step of `_ensureBasicStructure`: afterwards the
part is present, existing parts survive, and well-formedness is
preserved. -/
theorem ensureStep (files : List (String × String)) (p c : String)
    (hc : c ≠ "") (hp : endsWithSlash p = false)
    (hwf : ∀ pc ∈ files, pc.2 ≠ "" ∧ endsWithSlash pc.1 = false) :
    fileHas (if fileHas files p then files else fileSet files p c) p = true ∧
    (∀ q, fileHas files q = true →
      fileHas (if fileHas files p then files else fileSet files p c) q = true) ∧
    (∀ pc ∈ (if fileHas files p then files else fileSet files p c),
      pc.2 ≠ "" ∧ endsWithSlash pc.1 = false) := by
  by_cases h : fileHas files p = true
  · rw [if_pos h]
    exact ⟨h, fun q hq => hq, hwf⟩
  · rw [if_neg h]
    refine ⟨?_, ?_, wf_fileSet files p c hwf hc hp⟩
    · rw [fileHas_fileSet]
      simp
    · intro q hq
      rw [fileHas_fileSet, hq]
      rfl

/-- After `_ensureBasicStructure` all three default structural parts are
present and the part store stays well-formed. -/
theorem ensureBasicStructure_spec (d : Document)
    (hwf : ∀ pc ∈ d.files, pc.2 ≠ "" ∧ endsWithSlash pc.1 = false) :
    fileHas (Document.ensureBasicStructure d).files "[Content_Types].xml" = true ∧
    fileHas (Document.ensureBasicStructure d).files "_rels/.rels" = true ∧
    fileHas (Document.ensureBasicStructure d).files "word/_rels/document.xml.rels" = true ∧
    (∀ pc ∈ (Document.ensureBasicStructure d).files,
      pc.2 ≠ "" ∧ endsWithSlash pc.1 = false) := by
  have hct : Document.createContentTypes ≠ "" :=
    append_ne_empty_left xmlDeclaration _ (by decide)
  have hrr : Document.createRootRels ≠ "" :=
    append_ne_empty_left xmlDeclaration _ (by decide)
  have hdr : Document.createDocumentRels ≠ "" :=
    append_ne_empty_left xmlDeclaration _ (by decide)
  obtain ⟨h1a, h1b, h1wf⟩ :=
    ensureStep d.files "[Content_Types].xml" Document.createContentTypes hct (by decide) hwf
  obtain ⟨h2a, h2b, h2wf⟩ := ensureStep _ "_rels/.rels" Document.createRootRels hrr (by decide) h1wf
  obtain ⟨h3a, h3b, h3wf⟩ :=
    ensureStep _ "word/_rels/document.xml.rels" Document.createDocumentRels hdr (by decide) h2wf
  exact ⟨h3b _ (h2b _ h1a), h3b _ h2a, h3a, h3wf⟩

/-- `_updateDocumentXml` stores some nonempty generated content under
the primary document part and touches nothing else in the store. -/
theorem updateDocumentXml_files (d : Document) :
    ∃ content, content ≠ "" ∧
      (Document.updateDocumentXml d).files = fileSet d.files "word/document.xml" content := by
  unfold Document.updateDocumentXml
  simp only
  exact ⟨_, append_ne_empty_left xmlDeclaration _ (by decide), rfl⟩

/-- C5 (amended): for every dirty document and every document with an
empty part store — that is, every freshly created or since-mutated
state — whose stored parts are well-formed (nonempty contents and
non-directory paths, the invariant the ZIP reader guarantees),
serialization produces a package containing at least
`[Content_Types].xml`, `_rels/.rels`, `word/_rels/document.xml.rels` and
`word/document.xml`.  A clean document with a non-empty part store is
written back verbatim and may lack them. -/
theorem toBuffer_contains_parts (d : Document)
    (hcond : d.dirty = true ∨ d.files = [])
    (hwf : ∀ pc ∈ d.files, pc.2 ≠ "" ∧ endsWithSlash pc.1 = false) :
    fileHas d.toBufferFiles "[Content_Types].xml" = true ∧
    fileHas d.toBufferFiles "_rels/.rels" = true ∧
    fileHas d.toBufferFiles "word/_rels/document.xml.rels" = true ∧
    fileHas d.toBufferFiles "word/document.xml" = true := by
  unfold Document.toBufferFiles Document.updateFiles
  rw [if_neg (by
    intro hcon
    rcases hcond with h | h
    · rw [h] at hcon
      exact absurd hcon.1 (by simp)
    · exact hcon.2 h)]
  obtain ⟨content, hcne, hfe⟩ := updateDocumentXml_files (Document.ensureBasicStructure d)
  rw [hfe]
  obtain ⟨e1, e2, e3, ewf⟩ := ensureBasicStructure_spec d hwf
  have hwf4 := wf_fileSet (Document.ensureBasicStructure d).files "word/document.xml" content
    ewf hcne (by decide)
  rw [fileHas_zipFilter _ _ hwf4, fileHas_zipFilter _ _ hwf4, fileHas_zipFilter _ _ hwf4,
    fileHas_zipFilter _ _ hwf4]
  refine ⟨?_, ?_, ?_, ?_⟩ <;> rw [fileHas_fileSet] <;> simp [e1, e2, e3]

/-- Witness: a freshly created document serializes to a package with all
four structural parts. -/
theorem toBuffer_contains_parts_witness :
    (Document.create.dirty = true ∨ Document.create.files = []) ∧
    (fileHas Document.create.toBufferFiles "[Content_Types].xml" = true ∧
      fileHas Document.create.toBufferFiles "_rels/.rels" = true ∧
      fileHas Document.create.toBufferFiles "word/_rels/document.xml.rels" = true ∧
      fileHas Document.create.toBufferFiles "word/document.xml" = true) :=
  ⟨Or.inl rfl,
    toBuffer_contains_parts Document.create (Or.inl rfl)
      (fun pc hpc => absurd hpc (by simp [Document.create]))⟩

/-! ## Template substitution lemmas -/

/-- `scanKey` consumes exactly a key followed by the closing brace. -/
theorem scanKey_exact :
    ∀ (kd acc rest : List Char), (∀ c ∈ kd, isKeyChar c = true) → (acc ++ kd) ≠ [] →
      scanKey (kd ++ braceClose :: rest) acc = some (String.mk (acc ++ kd), rest) := by
  intro kd
  induction kd with
  | nil =>
    intro acc rest _ hne
    have hacc : acc.isEmpty = false := by
      cases acc with
      | nil => exact absurd (by simp) hne
      | cons a b => rfl
    simp only [List.nil_append, scanKey, beq_self_eq_true, if_true, hacc,
      Bool.false_eq_true, if_false, List.append_nil]
  | cons c cs ih =>
    intro acc rest hkd hne
    have hc : isKeyChar c = true := hkd c (List.mem_cons_self _ _)
    have hcb : (c == braceClose) = false := by
      cases hb : c == braceClose with
      | false => rfl
      | true =>
        have : c = braceClose := eq_of_beq hb
        rw [this] at hc
        exact absurd hc (by decide)
    simp only [List.cons_append, scanKey, hcb, Bool.false_eq_true, if_false, hc, if_true,
      List.append_eq]
    have := ih (acc ++ [c]) rest (fun x hx => hkd x (List.mem_cons_of_mem _ hx)) (by simp)
    rw [this]
    simp [List.append_assoc]

/-- The substitution pass on a string that is exactly one bound
placeholder yields exactly the bound value. -/
theorem substChars_placeholder (data : List (String × String)) (key v : String)
    (hk : ∀ c ∈ key.data, isKeyChar c = true) (hne : key ≠ "")
    (hv : lookupValue data key = some v) :
    substChars data (braceOpen :: (key.data ++ [braceClose])) = v.data := by
  have hkdne : (([] : List Char) ++ key.data) ≠ [] := by
    simp only [List.nil_append]
    intro hcon
    apply hne
    cases key with
    | mk d =>
      simp only at hcon
      rw [hcon]
  have hscan := scanKey_exact key.data [] [] hk hkdne
  simp only [List.nil_append] at hscan
  rw [substChars]
  simp only [beq_self_eq_true, if_true]
  rw [hscan]
  simp only
  have hmk : String.mk key.data = key := rfl
  rw [hmk, hv]
  simp [substChars]

/-- The logical text of a paragraph holding two plain text runs. -/
theorem paragraphText_two_runs (attrs : List (String × String)) (s1 s2 : String) :
    paragraphText (createElement "w:p" attrs
      [createElement "w:r" [] [createElement "w:t" [] [.text s1]],
       createElement "w:r" [] [createElement "w:t" [] [.text s2]]]) = s1 ++ s2 := by
  simp [paragraphText, runText, textValue, getChildren, isTag, createElement, String.join]

/-- The logical text of a paragraph holding one plain text run. -/
theorem paragraphText_one_run (attrs : List (String × String)) (s : String) :
    paragraphText (createElement "w:p" attrs
      [createElement "w:r" [] [createElement "w:t" [] [.text s]]]) = s := by
  simp [paragraphText, runText, textValue, getChildren, isTag, createElement, String.join]

/-- The substitution pass treats the elements of a body list
independently. -/
theorem renderElements_split (data : List (String × String)) :
    ∀ (xs ys : List XmlNode) (p : XmlNode),
      renderElements data (xs ++ p :: ys) =
        renderElements data xs ++ renderElement data p :: renderElements data ys := by
  intro xs
  induction xs with
  | nil => intro ys p; rfl
  | cons x xt ih =>
    intro ys p
    simp only [List.cons_append, renderElements, List.append_eq, ih]

/-- C2: rendering a document whose body contains a paragraph in which a
bound placeholder is split across two adjacent text runs rewrites that
paragraph so that its consolidated text is exactly the bound value — no
literal placeholder text and no split fragments remain — while every
other body element is processed independently and the document is marked
dirty. -/
theorem render_split_placeholder (d : Document) (data : List (String × String))
    (key v s1 s2 : String) (attrs : List (String × String)) (pre post : List XmlNode)
    (hbody : d.bodyElements = pre ++
      createElement "w:p" attrs
        [createElement "w:r" [] [createElement "w:t" [] [.text s1]],
         createElement "w:r" [] [createElement "w:t" [] [.text s2]]] :: post)
    (hk : ∀ c ∈ key.data, isKeyChar c = true) (hne : key ≠ "")
    (hv : lookupValue data key = some v)
    (hsplit : s1 ++ s2 = String.mk (braceOpen :: (key.data ++ [braceClose]))) :
    (d.render data).dirty = true ∧
    ∃ p, (d.render data).bodyElements =
        renderElements data pre ++ p :: renderElements data post ∧
      paragraphText p = v := by
  have hsub : substituteString data (s1 ++ s2) = v := by
    rw [hsplit]
    show String.mk (substChars data (braceOpen :: (key.data ++ [braceClose]))) = v
    rw [substChars_placeholder data key v hk hne hv]
  have htxt := paragraphText_two_runs attrs s1 s2
  refine ⟨rfl, renderElement data
    (createElement "w:p" attrs
      [createElement "w:r" [] [createElement "w:t" [] [.text s1]],
       createElement "w:r" [] [createElement "w:t" [] [.text s2]]]), ?_, ?_⟩
  · show renderElements data d.bodyElements = _
    rw [hbody, renderElements_split]
  · show paragraphText (renderElement data (.elem "w:p" attrs _)) = v
    rw [renderElement]
    simp only [beq_self_eq_true, if_true]
    rw [renderParagraph]
    simp only [beq_self_eq_true, if_true]
    rw [show XmlNode.elem "w:p" attrs
        [createElement "w:r" [] [createElement "w:t" [] [.text s1]],
         createElement "w:r" [] [createElement "w:t" [] [.text s2]]] =
      createElement "w:p" attrs
        [createElement "w:r" [] [createElement "w:t" [] [.text s1]],
         createElement "w:r" [] [createElement "w:t" [] [.text s2]]] from rfl]
    rw [htxt, hsub]
    cases hb : (v == s1 ++ s2) with
    | true =>
      simp only [if_true]
      rw [htxt]
      exact (eq_of_beq hb).symm
    | false =>
      simp only [Bool.false_eq_true, if_false]
      exact paragraphText_one_run attrs v

/-- C2 witness: the split placeholder scenario from the specification —
runs holding the two placeholder fragments for key `name`, data binding
`name` to `Ivy` — renders to a paragraph whose text is exactly `Ivy`. -/
theorem render_split_placeholder_witness :
    (({ Document.create with bodyElements :=
      [createElement "w:p" []
        [createElement "w:r" [] [createElement "w:t" [] [.text "\x7bna"]],
         createElement "w:r" [] [createElement "w:t" [] [.text "me\x7d"]]]] }
      : Document).render [("name", "Ivy")]).dirty = true ∧
    ∃ p, (({ Document.create with bodyElements :=
      [createElement "w:p" []
        [createElement "w:r" [] [createElement "w:t" [] [.text "\x7bna"]],
         createElement "w:r" [] [createElement "w:t" [] [.text "me\x7d"]]]] }
      : Document).render [("name", "Ivy")]).bodyElements =
        renderElements [("name", "Ivy")] [] ++ p :: renderElements [("name", "Ivy")] [] ∧
      paragraphText p = "Ivy" :=
  render_split_placeholder _ [("name", "Ivy")] "name" "Ivy" "\x7bna" "me\x7d" [] [] []
    rfl (by decide) (by decide) (by decide) (by decide)

end Word
